import Mathlib

/-!
Verification of the indexanter document pipeline: a shallow embedding of the
segmentation, splitting, taxonomy-classification, consolidation, ledger and
field-extraction logic of the repository, with theorems checking the
natural-language specification against it.

String-processing primitives from the Python runtime (`str.strip`, `int`,
`str.replace`, regular-expression search) are embedded as executable Lean
functions over `String` / `List Char`, modelling the ASCII behaviour the
pipeline exercises.
-/

namespace Indexanter

/-- Python `str.strip()`: drop whitespace from both ends. -/
def pyStrip (s : String) : String :=
  ⟨((s.data.dropWhile Char.isWhitespace).reverse.dropWhile Char.isWhitespace).reverse⟩

/-- ASCII decimal digit, by code point ('0' is 48, '9' is 57). -/
def isDigitCh (c : Char) : Bool := 48 ≤ c.toNat && c.toNat ≤ 57

/-- Helper for `pyInt`: all characters are ASCII digits and the list is nonempty. -/
def allDigits (cs : List Char) : Bool :=
  !cs.isEmpty && cs.all isDigitCh

/-- Digit list to natural number, most significant first. -/
def digitsToNat (cs : List Char) : Nat :=
  cs.foldl (fun acc c => acc * 10 + (c.toNat - 48)) 0

/-- Python `int(s)` on an already-stripped string: optional sign followed by
digits; anything else raises `ValueError`, modelled as `none`. -/
def pyInt (s : String) : Option Int :=
  match s.data with
  | [] => none
  | c :: rest =>
    if c = '-' then if allDigits rest then some (-(digitsToNat rest : Int)) else none
    else if c = '+' then if allDigits rest then some ((digitsToNat rest : Int)) else none
    else if allDigits (c :: rest) then some ((digitsToNat (c :: rest) : Int)) else none

/-- Decimal digit character of `n % 10`. -/
def digitCh (n : Nat) : Char := Char.ofNat (48 + n % 10)

/-- Decimal digit list of a natural number, most significant first; fuel-based
structural recursion (any fuel above the value is adequate). -/
def natDigitsAux : Nat → Nat → List Char
  | 0, _ => []
  | fuel + 1, n => if n < 10 then [digitCh n] else natDigitsAux fuel (n / 10) ++ [digitCh n]

/-- Decimal digit list of a natural number, most significant first. -/
def natDigits (n : Nat) : List Char := natDigitsAux (n + 1) n

/-- Python `str(n)` for an integer. -/
def intStr (n : Int) : String :=
  if n < 0 then ⟨'-' :: natDigits n.natAbs⟩ else ⟨natDigits n.natAbs⟩

/-- Python `f"{n:02d}"`: decimal rendering zero-padded to width two
(the sign counts toward the width, as in Python). -/
def pad2 (n : Int) : String :=
  if 0 ≤ n ∧ n < 10 then "0" ++ intStr n else intStr n

theorem charToNat_ofNat_valid {n : Nat} (h : n.isValidChar) : (Char.ofNat n).toNat = n := by
  simp only [Char.ofNat]
  rw [dif_pos h]
  rfl

theorem toNat_digitCh (n : Nat) : (digitCh n).toNat = 48 + n % 10 := by
  have h9 : n % 10 < 10 := Nat.mod_lt _ (by omega)
  simp only [digitCh]
  exact charToNat_ofNat_valid (Or.inl (by omega))

theorem isDigitCh_digitCh (n : Nat) : isDigitCh (digitCh n) = true := by
  have h9 : n % 10 < 10 := Nat.mod_lt _ (by omega)
  simp only [isDigitCh, toNat_digitCh, Bool.and_eq_true, decide_eq_true_eq]
  omega

theorem digitsToNat_append (xs : List Char) (c : Char) :
    digitsToNat (xs ++ [c]) = digitsToNat xs * 10 + (c.toNat - 48) := by
  simp [digitsToNat]

theorem natDigitsAux_spec :
    ∀ fuel n, n < fuel →
      digitsToNat (natDigitsAux fuel n) = n ∧
      (∀ c ∈ natDigitsAux fuel n, isDigitCh c = true) ∧
      natDigitsAux fuel n ≠ [] := by
  intro fuel
  induction fuel with
  | zero => intro n h; omega
  | succ fuel ih =>
    intro n h
    by_cases h10 : n < 10
    · simp only [natDigitsAux, if_pos h10]
      refine ⟨?_, ?_, by simp⟩
      · simp only [digitsToNat, List.foldl_cons, List.foldl_nil, toNat_digitCh]
        omega
      · intro c hc
        rw [List.mem_singleton] at hc
        subst hc
        exact isDigitCh_digitCh n
    · have hn : n / 10 < fuel := by omega
      obtain ⟨h1, h2, _h3⟩ := ih (n / 10) hn
      simp only [natDigitsAux, if_neg h10]
      refine ⟨?_, ?_, by simp⟩
      · rw [digitsToNat_append, h1, toNat_digitCh]
        omega
      · intro c hc
        rcases List.mem_append.mp hc with hx | hx
        · exact h2 c hx
        · rw [List.mem_singleton] at hx
          subst hx
          exact isDigitCh_digitCh n

theorem digitsToNat_natDigits (n : Nat) : digitsToNat (natDigits n) = n :=
  (natDigitsAux_spec (n + 1) n (by omega)).1

theorem natDigits_all_digit (n : Nat) : ∀ c ∈ natDigits n, isDigitCh c = true :=
  (natDigitsAux_spec (n + 1) n (by omega)).2.1

theorem natDigits_ne_nil (n : Nat) : natDigits n ≠ [] :=
  (natDigitsAux_spec (n + 1) n (by omega)).2.2

theorem allDigits_of_parts (cs : List Char) (h1 : cs ≠ [])
    (h2 : ∀ c ∈ cs, isDigitCh c = true) : allDigits cs = true := by
  cases cs with
  | nil => exact absurd rfl h1
  | cons c r =>
    simp only [allDigits, List.isEmpty_cons, Bool.not_false, Bool.true_and, List.all_eq_true]
    exact fun x hx => h2 x hx

theorem allDigits_natDigits (n : Nat) : allDigits (natDigits n) = true :=
  allDigits_of_parts _ (natDigits_ne_nil n) (natDigits_all_digit n)

theorem pyInt_of_allDigits (cs : List Char) (h : allDigits cs = true) :
    pyInt ⟨cs⟩ = some ((digitsToNat cs : Int)) := by
  cases cs with
  | nil => simp [allDigits] at h
  | cons c rest =>
    have hc : isDigitCh c = true := by
      have h2 := h
      simp only [allDigits, Bool.and_eq_true, List.all_eq_true] at h2
      exact h2.2 c (List.mem_cons_self c rest)
    have hm : c ≠ '-' := by
      intro e; subst e; exact absurd hc (by decide)
    have hp : c ≠ '+' := by
      intro e; subst e; exact absurd hc (by decide)
    simp [pyInt, hm, hp, h]

theorem digitsToNat_cons_zero (ds : List Char) :
    digitsToNat ('0' :: ds) = digitsToNat ds := by
  simp only [digitsToNat, List.foldl_cons]
  norm_num [show '0'.toNat = 48 from rfl]

theorem pyInt_pad2 (n : Int) : pyInt (pad2 n) = some n := by
  by_cases hneg : n < 0
  · have hpd : pad2 n = ⟨'-' :: natDigits n.natAbs⟩ := by
      rw [pad2, if_neg (by omega), intStr, if_pos hneg]
    rw [hpd]
    have hstep : pyInt ⟨'-' :: natDigits n.natAbs⟩ =
        if allDigits (natDigits n.natAbs) then
          some (-(digitsToNat (natDigits n.natAbs) : Int)) else none := by
      simp [pyInt]
    rw [hstep, if_pos (allDigits_natDigits _), digitsToNat_natDigits]
    congr 1
    omega
  · by_cases hsm : n < 10
    · have hpd : pad2 n = ⟨'0' :: natDigits n.natAbs⟩ := by
        rw [pad2, if_pos ⟨by omega, hsm⟩, intStr, if_neg hneg]
        rfl
      have h0 : allDigits ('0' :: natDigits n.natAbs) = true := by
        refine allDigits_of_parts _ (by simp) ?_
        intro c hc
        rcases List.mem_cons.mp hc with h1 | h1
        · subst h1; decide
        · exact natDigits_all_digit _ c h1
      rw [hpd, pyInt_of_allDigits _ h0, digitsToNat_cons_zero, digitsToNat_natDigits]
      congr 1
      omega
    · have hpd : pad2 n = ⟨natDigits n.natAbs⟩ := by
        rw [pad2, if_neg (by omega), intStr, if_neg hneg]
      rw [hpd, pyInt_of_allDigits _ (allDigits_natDigits _), digitsToNat_natDigits]
      congr 1
      omega

/-! ## Document Segmenter (`app.py`, `separar_pdfs`, lines 434-457)

One CSV row, as read back by `csv.DictReader`, restricted to the two fields
the segmentation loop consults. -/

structure PageRow where
  folio : String
  ocultar : String
deriving Repr, DecidableEq

/-- One logical document: folio key plus the 1-based page numbers it owns. -/
structure FolioGroup where
  folio : String
  pages : List Nat
deriving Repr, DecidableEq

/-- The loop of `separar_pdfs`: `page` is the 1-based index of the next row,
`cur` the currently open group, `acc` the groups closed so far. -/
def separarLoop : List PageRow → Nat → Option FolioGroup → List FolioGroup → List FolioGroup
  | [], _, cur, acc =>
    match cur with
    | some g => acc ++ [g]
    | none => acc
  | r :: rest, page, cur, acc =>
    if pyStrip r.ocultar ≠ "SI" then
      if pyStrip r.folio ≠ "" then
        match cur with
        | some g => separarLoop rest (page + 1) (some ⟨pyStrip r.folio, [page]⟩) (acc ++ [g])
        | none => separarLoop rest (page + 1) (some ⟨pyStrip r.folio, [page]⟩) acc
      else
        match cur with
        | some g => separarLoop rest (page + 1) (some ⟨g.folio, g.pages ++ [page]⟩) acc
        | none => separarLoop rest (page + 1) none acc
    else
      separarLoop rest (page + 1) cur acc

/-- Segmentation as implemented by `separar_pdfs` (app.py lines 434-457). -/
def folioGroups (rows : List PageRow) : List FolioGroup :=
  separarLoop rows 1 none []

/-- Reference grouping, written from the spec's words: iterate in page order;
skip any excluded record entirely; a record with non-empty folio closes the
open document (if any) and opens a new one keyed by that folio; a record with
empty folio is appended to the open document if one exists and is otherwise
discarded; at end of sequence the still-open document is closed. -/
def segmentRef : List PageRow → Nat → Option FolioGroup → List FolioGroup
  | [], _, cur => cur.toList
  | r :: rest, page, cur =>
    if pyStrip r.ocultar = "SI" then
      segmentRef rest (page + 1) cur
    else if pyStrip r.folio ≠ "" then
      cur.toList ++ segmentRef rest (page + 1) (some ⟨pyStrip r.folio, [page]⟩)
    else
      match cur with
      | some g => segmentRef rest (page + 1) (some ⟨g.folio, g.pages ++ [page]⟩)
      | none => segmentRef rest (page + 1) none

/-- Reference segmentation of a whole archive. -/
def segmentReference (rows : List PageRow) : List FolioGroup :=
  segmentRef rows 1 none

theorem separarLoop_eq_segmentRef (rows : List PageRow) :
    ∀ (page : Nat) (cur : Option FolioGroup) (acc : List FolioGroup),
      separarLoop rows page cur acc = acc ++ segmentRef rows page cur := by
  induction rows with
  | nil =>
    intro page cur acc
    cases cur <;> simp [separarLoop, segmentRef, Option.toList]
  | cons r rest ih =>
    intro page cur acc
    by_cases hoc : pyStrip r.ocultar = "SI"
    · simp [separarLoop, segmentRef, hoc, ih]
    · by_cases hf : pyStrip r.folio = ""
      · cases cur <;>
          simp [separarLoop, segmentRef, hoc, hf, ih, Option.toList]
      · cases cur <;>
          simp [separarLoop, segmentRef, hoc, hf, ih, Option.toList]

/-- C1: segmentation equals the reference grouping — excluded records are
skipped entirely, a non-empty folio closes the open document and opens a new
one, an empty-folio record extends the open document or is discarded, and the
still-open document is closed at end of input; in particular
`[(folio=A), (excluded, folio=""), (folio="")]` yields one document
`A -> [1, 3]`. -/
theorem segmentation_matches_reference_grouping :
    (∀ rows : List PageRow, folioGroups rows = segmentReference rows) ∧
    folioGroups [⟨"A", "NO"⟩, ⟨"", "SI"⟩, ⟨"", "NO"⟩] = [⟨"A", [1, 3]⟩] := by
  constructor
  · intro rows
    simpa [folioGroups, segmentReference] using separarLoop_eq_segmentRef rows 1 none []
  · rfl

/-! ## PDF Splitter (`app.py`, `separar_pdfs`, lines 476-499)

For each group the code builds a fresh PDF, inserting, for every 1-based
`page_num` of the group in order, the 0-based source page `page_num - 1`
whenever it is below the source page count, and saves it as `<folio>.pdf`.
The output PDF is modelled as the list of 0-based source positions inserted. -/

def splitPagesLoop (pageCount : Nat) (pages : List Nat) : List Nat :=
  pages.foldl (fun acc p => if p - 1 < pageCount then acc ++ [p - 1] else acc) []

/-- The file produced for one folio group: its name and its source pages. -/
def splitGroup (pageCount : Nat) (g : FolioGroup) : String × List Nat :=
  (g.folio ++ ".pdf", splitPagesLoop pageCount g.pages)

theorem splitPagesLoop_foldl (pageCount : Nat) (pages : List Nat) :
    ∀ acc : List Nat,
      pages.foldl (fun acc p => if p - 1 < pageCount then acc ++ [p - 1] else acc) acc =
        acc ++ (pages.filter (fun p => p - 1 < pageCount)).map (fun p => p - 1) := by
  induction pages with
  | nil => intro acc; simp
  | cons p rest ih =>
    intro acc
    by_cases hp : p - 1 < pageCount <;> simp [List.foldl, hp, ih]

/-- Invariant carried by the open group while segmenting: its pages are
strictly ascending and all below the next page number. -/
def curSorted (page : Nat) : Option FolioGroup → Prop
  | none => True
  | some g => g.pages.Chain' (· < ·) ∧ ∀ p ∈ g.pages, p < page

theorem segmentRef_pages_sorted :
    ∀ (rows : List PageRow) (page : Nat) (cur : Option FolioGroup),
      curSorted page cur →
      ∀ g ∈ segmentRef rows page cur, g.pages.Chain' (· < ·) := by
  intro rows
  induction rows with
  | nil =>
    intro page cur hcur g hg
    cases cur with
    | none => simp [segmentRef, Option.toList] at hg
    | some g0 =>
      simp [segmentRef, Option.toList] at hg
      subst hg
      exact hcur.1
  | cons r rest ih =>
    intro page cur hcur g hg
    by_cases hoc : pyStrip r.ocultar = "SI"
    · simp only [segmentRef, hoc, if_true] at hg
      exact ih (page + 1) cur
        (by cases cur with
            | none => trivial
            | some g0 => exact ⟨hcur.1, fun p hp => Nat.lt_succ_of_lt (hcur.2 p hp)⟩) g hg
    · by_cases hf : pyStrip r.folio = ""
      · cases cur with
        | none =>
          simp [segmentRef, hoc, hf] at hg
          exact ih (page + 1) none trivial g hg
        | some g0 =>
          simp [segmentRef, hoc, hf] at hg
          refine ih (page + 1) (some ⟨g0.folio, g0.pages ++ [page]⟩) ?_ g hg
          refine ⟨?_, ?_⟩
          · rw [List.chain'_append]
            refine ⟨hcur.1, List.chain'_singleton page, ?_⟩
            intro x hx y hy
            rw [List.head?_cons, Option.mem_some_iff] at hy
            subst hy
            exact hcur.2 x (List.mem_of_mem_getLast? hx)
          · intro p hp
            rcases List.mem_append.mp hp with h | h
            · exact Nat.lt_succ_of_lt (hcur.2 p h)
            · rw [List.mem_singleton] at h; omega
      · simp [segmentRef, hoc, hf] at hg
        rcases hg with h | h
        · cases cur with
          | none => exact absurd h (by simp)
          | some g0 =>
            rw [Option.some_inj] at h
            subst h
            exact hcur.1
        · refine ih (page + 1) (some ⟨pyStrip r.folio, [page]⟩) ?_ g h
          refine ⟨List.chain'_singleton page, ?_⟩
          intro p hp
          rw [List.mem_singleton] at hp
          omega

theorem segmentRef_pages_ge_one :
    ∀ (rows : List PageRow) (page : Nat) (cur : Option FolioGroup),
      1 ≤ page →
      (∀ g0, cur = some g0 → ∀ p ∈ g0.pages, 1 ≤ p) →
      ∀ g ∈ segmentRef rows page cur, ∀ p ∈ g.pages, 1 ≤ p := by
  intro rows
  induction rows with
  | nil =>
    intro page cur hpage hcur g hg
    cases cur with
    | none => simp [segmentRef, Option.toList] at hg
    | some g0 =>
      simp [segmentRef, Option.toList] at hg
      subst hg
      exact hcur g rfl
  | cons r rest ih =>
    intro page cur hpage hcur g hg
    by_cases hoc : pyStrip r.ocultar = "SI"
    · simp only [segmentRef, hoc, if_true] at hg
      exact ih (page + 1) cur (by omega) hcur g hg
    · by_cases hf : pyStrip r.folio = ""
      · cases cur with
        | none =>
          simp [segmentRef, hoc, hf] at hg
          exact ih (page + 1) none (by omega) (by intro g0 h; cases h) g hg
        | some g0 =>
          simp [segmentRef, hoc, hf] at hg
          refine ih (page + 1) (some ⟨g0.folio, g0.pages ++ [page]⟩) (by omega) ?_ g hg
          intro g1 h1
          rw [Option.some_inj] at h1
          subst h1
          intro p hp
          rcases List.mem_append.mp hp with h | h
          · exact hcur g0 rfl p h
          · rw [List.mem_singleton] at h; omega
      · simp [segmentRef, hoc, hf] at hg
        rcases hg with h | h
        · cases cur with
          | none => exact absurd h (by simp)
          | some g0 =>
            rw [Option.some_inj] at h
            exact h ▸ hcur g0 rfl
        · refine ih (page + 1) (some ⟨pyStrip r.folio, [page]⟩) (by omega) ?_ g h
          intro g1 h1
          rw [Option.some_inj] at h1
          subst h1
          intro p hp
          rw [List.mem_singleton] at hp
          omega

/-- Subtracting one preserves strict ascent on lists of positive numbers. -/
theorem chain_lt_map_sub_one :
    ∀ l : List Nat, (∀ p ∈ l, 1 ≤ p) → l.Chain' (· < ·) →
      (l.map (fun p => p - 1)).Chain' (· < ·) := by
  intro l
  induction l with
  | nil => intro _ _; simp
  | cons a t ih =>
    intro hpos hch
    cases t with
    | nil => simp
    | cons b t2 =>
      rw [List.chain'_cons] at hch
      rw [List.map_cons, List.map_cons, List.chain'_cons]
      constructor
      · have ha : 1 ≤ a := hpos a (by simp)
        omega
      · have := ih (fun p hp => hpos p (List.mem_cons_of_mem a hp)) hch.2
        simpa using this

/-- C5: each logical document is emitted as `<folio>.pdf` containing exactly
the pages of its `page_index` list in order — each taken from the 0-based
source position `page_index - 1` — with any out-of-range page silently
dropped; and for documents produced by segmentation, the page list (hence the
output) is strictly ascending. -/
theorem splitter_pages_exact_and_ascending :
    (∀ (pageCount : Nat) (g : FolioGroup),
        splitGroup pageCount g =
          (g.folio ++ ".pdf",
            (g.pages.filter (fun p => p - 1 < pageCount)).map (fun p => p - 1))) ∧
    (∀ (rows : List PageRow) (pageCount : Nat),
        ∀ g ∈ folioGroups rows, ((splitGroup pageCount g).2).Chain' (· < ·)) := by
  constructor
  · intro pageCount g
    simp [splitGroup, splitPagesLoop, splitPagesLoop_foldl pageCount g.pages []]
  · intro rows pageCount g hg
    rw [folioGroups, separarLoop_eq_segmentRef rows 1 none []] at hg
    simp only [List.nil_append] at hg
    have hsor : g.pages.Chain' (· < ·) :=
      segmentRef_pages_sorted rows 1 none trivial g hg
    have hpos : ∀ p ∈ g.pages, 1 ≤ p :=
      segmentRef_pages_ge_one rows 1 none (by omega) (by intro g0 h; cases h) g hg
    have : (splitGroup pageCount g).2 =
        (g.pages.filter (fun p => p - 1 < pageCount)).map (fun p => p - 1) := by
      simp [splitGroup, splitPagesLoop, splitPagesLoop_foldl pageCount g.pages []]
    rw [this]
    have hfil : (g.pages.filter (fun p => p - 1 < pageCount)).Chain' (· < ·) :=
      List.Chain'.sublist hsor (List.filter_sublist _)
    exact chain_lt_map_sub_one _
      (fun p hp => hpos p (List.mem_of_mem_filter hp)) hfil

/-- Witness for C5's second conjunct at a concrete segmentation. -/
theorem splitter_pages_exact_and_ascending_witness :
    (⟨"12345678", [1, 2]⟩ : FolioGroup) ∈ folioGroups [⟨"12345678", "NO"⟩, ⟨"", "NO"⟩] ∧
    ((splitGroup 1 ⟨"12345678", [1, 2]⟩).2).Chain' (· < ·) :=
  ⟨by decide,
   splitter_pages_exact_and_ascending.2 [⟨"12345678", "NO"⟩, ⟨"", "NO"⟩] 1
     ⟨"12345678", [1, 2]⟩ (by decide)⟩

/-! ## Failure behaviour of the splitting loop (`app.py`, lines 404-508)

The whole body of `separar_pdfs` — including the loop over the folio groups —
sits inside a single `try`/`except`; producing one group's PDF (`new_pdf.save`
etc.) is an effectful call that may raise.  The loop is modelled with a save
oracle in the `Except` monad: a raise anywhere leaves the loop and lands in
the single handler, which reports the error once. -/

def exceptOk (e : Except String Unit) : Bool :=
  match e with
  | .ok _ => true
  | .error _ => false

def errOf (e : Except String Unit) : Option String :=
  match e with
  | .ok _ => none
  | .error s => some s

/-- The per-group loop of `separar_pdfs`: returns the names of the PDFs
actually created and the reported error, if any. -/
def separarPdfsCreate (save : FolioGroup → Except String Unit) :
    List FolioGroup → List String × Option String
  | [] => ([], none)
  | g :: rest =>
    match save g with
    | .ok _ =>
      let r := separarPdfsCreate save rest
      ((g.folio ++ ".pdf") :: r.1, r.2)
    | .error e => ([], some e)

/-- The claim as stated: a per-document failure is isolated, so every document
whose own save succeeds still gets its output produced. -/
def isolatedFailureClaim : Prop :=
  ∀ (save : FolioGroup → Except String Unit) (groups : List FolioGroup)
    (g : FolioGroup), g ∈ groups → save g = .ok () →
      (g.folio ++ ".pdf") ∈ (separarPdfsCreate save groups).1

/-- C4 counterexample: with two documents where saving the first raises, the
second document's save succeeds yet its PDF is never produced — the single
`try`/`except` around the whole loop aborts the remaining documents. -/
theorem split_failure_not_isolated : ¬ isolatedFailureClaim := by
  intro h
  have hmem := h (fun g => if g.folio = "00000001" then .error "save failed" else .ok ())
    [⟨"00000001", [1]⟩, ⟨"00000002", [2]⟩] ⟨"00000002", [2]⟩ (by decide) rfl
  exact absurd hmem (by decide)

/-- C4 amended: a failure while producing one document's PDF aborts the
remaining documents of the archive and is reported once — the created outputs
are exactly those of the longest prefix of documents whose saves succeed, and
the reported error is the first failing document's. -/
theorem split_failure_aborts_rest :
    ∀ (save : FolioGroup → Except String Unit) (groups : List FolioGroup),
      (separarPdfsCreate save groups).1 =
        (groups.takeWhile (fun g => exceptOk (save g))).map (fun g => g.folio ++ ".pdf") ∧
      (separarPdfsCreate save groups).2 =
        ((groups.dropWhile (fun g => exceptOk (save g))).head?).bind (fun g => errOf (save g)) := by
  intro save groups
  induction groups with
  | nil => simp [separarPdfsCreate]
  | cons g rest ih =>
    cases hs : save g with
    | ok u =>
      cases u
      simp [separarPdfsCreate, hs, List.takeWhile_cons, List.dropWhile_cons, exceptOk,
        ih.1, ih.2]
    | error e =>
      simp [separarPdfsCreate, hs, List.takeWhile_cons, List.dropWhile_cons, exceptOk, errOf]

/-! ## Consolidator (`functions/generate_documentos.py`,
`generar_entregable_consolidado`, lines 202-432)

The run scans `ENTREGABLES/` for folders named `ENTREGABLE<suffix>`, parses
the numeric suffixes (`int(folder.replace("ENTREGABLE", ""))`, unparseable
ones skipped), picks `max + 1` (or `1` when none parse), creates
`ENTREGABLES/ENTREGABLE{n:02d}` and writes copied PDFs, the consolidated
spreadsheet and `RESUMEN.txt` inside it.  File writes are modelled as the
list of written paths, each a list of path components. -/

/-- Python `s.replace(old, "")` on character lists: delete every leftmost,
non-overlapping occurrence.  Fuel-based; `removeAll` supplies adequate fuel. -/
def removeAllAux : Nat → List Char → List Char → List Char
  | 0, _, cs => cs
  | _ + 1, _, [] => []
  | fuel + 1, old, c :: rest =>
    if old ≠ [] ∧ old.isPrefixOf (c :: rest) = true then
      removeAllAux fuel old ((c :: rest).drop old.length)
    else c :: removeAllAux fuel old rest

def removeAll (old cs : List Char) : List Char := removeAllAux cs.length old cs

/-- Python `s.replace(old, "")` on strings. -/
def pyRemove (s old : String) : String := ⟨removeAll old.data s.data⟩

/-- Python `s.startswith(pre)`. -/
def pyStartsWith (s pre : String) : Bool := pre.data.isPrefixOf s.data

theorem removeAllAux_fuel :
    ∀ fuel fuel' (old cs : List Char), cs.length ≤ fuel → cs.length ≤ fuel' →
      removeAllAux fuel old cs = removeAllAux fuel' old cs := by
  intro fuel
  induction fuel with
  | zero =>
    intro fuel' old cs h _h'
    cases cs with
    | nil => cases fuel' <;> rfl
    | cons c rest => simp at h
  | succ fuel ih =>
    intro fuel' old cs h h'
    cases cs with
    | nil => cases fuel' <;> rfl
    | cons c rest =>
      cases fuel' with
      | zero => simp at h'
      | succ fuel2 =>
        simp only [removeAllAux]
        by_cases hc : old ≠ [] ∧ old.isPrefixOf (c :: rest) = true
        · rw [if_pos hc, if_pos hc]
          have hol : 1 ≤ old.length := List.length_pos.mpr hc.1
          apply ih
          · simp only [List.length_drop, List.length_cons]
            simp only [List.length_cons] at h
            omega
          · simp only [List.length_drop, List.length_cons]
            simp only [List.length_cons] at h'
            omega
        · rw [if_neg hc, if_neg hc]
          congr 1
          apply ih
          · simp only [List.length_cons] at h; omega
          · simp only [List.length_cons] at h'; omega

theorem removeAll_append_self (old tail : List Char) (h : old ≠ []) :
    removeAll old (old ++ tail) = removeAll old tail := by
  cases old with
  | nil => exact absurd rfl h
  | cons o or2 =>
    show removeAllAux ((o :: (or2 ++ tail)).length) (o :: or2) (o :: (or2 ++ tail)) =
      removeAllAux tail.length (o :: or2) tail
    rw [show (o :: (or2 ++ tail)).length = (or2 ++ tail).length + 1 from rfl]
    simp only [removeAllAux]
    rw [if_pos ⟨by simp, by
      rw [List.isPrefixOf_iff_prefix]
      exact ⟨tail, by simp⟩⟩]
    rw [show (o :: or2).length = or2.length + 1 from rfl, List.drop_succ_cons,
      List.drop_left]
    apply removeAllAux_fuel
    · simp
    · exact le_refl _

theorem removeAllAux_of_head_not_mem (o : Char) (or2 : List Char) :
    ∀ (fuel : Nat) (cs : List Char), o ∉ cs →
      removeAllAux fuel (o :: or2) cs = cs := by
  intro fuel
  induction fuel with
  | zero => intro cs _; rfl
  | succ fuel ih =>
    intro cs hno
    cases cs with
    | nil => rfl
    | cons c rest =>
      have hnp : ¬ ((o :: or2) ≠ [] ∧ (o :: or2).isPrefixOf (c :: rest) = true) := by
        rintro ⟨-, hpre⟩
        rw [List.isPrefixOf_iff_prefix] at hpre
        rcases hpre with ⟨t, ht⟩
        have : o = c := by
          have := congrArg (List.head?) ht
          simpa using this
        exact hno (this ▸ List.mem_cons_self c rest)
      simp only [removeAllAux]
      rw [if_neg hnp]
      rw [ih rest (fun hm => hno (List.mem_cons_of_mem c hm))]

theorem removeAll_of_head_not_mem (o : Char) (or2 cs : List Char) (h : o ∉ cs) :
    removeAll (o :: or2) cs = cs :=
  removeAllAux_of_head_not_mem o or2 cs.length cs h

/-- Bundle folder name: `f"ENTREGABLE{n:02d}"`. -/
def entregableName (n : Int) : String := "ENTREGABLE" ++ pad2 n

/-- Numeric suffixes of the existing `ENTREGABLE*` folders. -/
def entregableNums (existing : List String) : List Int :=
  (existing.filter (fun d => pyStartsWith d "ENTREGABLE")).filterMap
    (fun f => pyInt (pyRemove f "ENTREGABLE"))

/-- `next_num` of `generar_entregable_consolidado`: `max + 1`, or `1` when no
folder parses. -/
def nextEntregableNum (existing : List String) : Int :=
  match entregableNums existing with
  | [] => 1
  | n :: ns => ns.foldl max n + 1

/-- One processed archive as the consolidator sees it: its name, the number of
ledger rows, and its classified PDFs (relative directory components, filename). -/
structure ConsDoc where
  name : String
  rowCount : Nat
  pdfs : List (List String × String)

/-- One consolidator run: the chosen bundle id and every file path written
(copied PDFs under the preserved year/month/type structure, the consolidated
spreadsheet when there is at least one row, and `RESUMEN.txt`). -/
def entregableWrites (existing : List String) (docs : List ConsDoc) :
    Int × List (List String) :=
  let n := nextEntregableNum existing
  let dir := ["ENTREGABLES", entregableName n]
  (n,
    docs.flatMap (fun d => d.pdfs.map (fun pr => dir ++ pr.1 ++ [pr.2])) ++
    (if docs.any (fun d => d.rowCount ≠ 0) then
      [dir ++ ["CONSOLIDADO_" ++ entregableName n ++ ".xlsx"]]
    else []) ++
    [dir ++ ["RESUMEN.txt"]])

theorem foldl_max_init_le (l : List Int) : ∀ a : Int, a ≤ l.foldl max a := by
  induction l with
  | nil => intro a; exact le_refl _
  | cons b t ih =>
    intro a
    rw [List.foldl_cons]
    exact le_trans (le_max_left a b) (ih (max a b))

theorem foldl_max_le_mem {l : List Int} {a x : Int} (hx : x ∈ a :: l) :
    x ≤ l.foldl max a := by
  induction l generalizing a with
  | nil =>
    rw [List.mem_singleton] at hx
    subst hx
    exact le_refl _
  | cons b t ih =>
    rw [List.foldl_cons]
    rcases List.mem_cons.mp hx with rfl | hx'
    · exact le_trans (le_max_left x b) (foldl_max_init_le t _)
    · rcases List.mem_cons.mp hx' with rfl | hx''
      · exact le_trans (le_max_right a x) (foldl_max_init_le t _)
      · exact ih (List.mem_cons_of_mem _ hx'')

theorem pad2_chars (n : Int) : ∀ c ∈ (pad2 n).data, c = '-' ∨ isDigitCh c = true := by
  intro c hc
  by_cases h1 : 0 ≤ n ∧ n < 10
  · rw [pad2, if_pos h1, intStr, if_neg (by omega), String.data_append] at hc
    rcases List.mem_append.mp hc with h | h
    · right
      rw [show ("0" : String).data = ['0'] from rfl, List.mem_singleton] at h
      subst h
      decide
    · exact Or.inr (natDigits_all_digit _ c h)
  · rw [pad2, if_neg h1, intStr] at hc
    by_cases h2 : n < 0
    · rw [if_pos h2] at hc
      rcases List.mem_cons.mp hc with h | h
      · exact Or.inl h
      · exact Or.inr (natDigits_all_digit _ c h)
    · rw [if_neg h2] at hc
      exact Or.inr (natDigits_all_digit _ c hc)

theorem pyRemove_entregableName (n : Int) :
    pyRemove (entregableName n) "ENTREGABLE" = pad2 n := by
  show String.mk (removeAll "ENTREGABLE".data ("ENTREGABLE" ++ pad2 n).data) = pad2 n
  rw [String.data_append, removeAll_append_self _ _ (by decide)]
  rw [show ("ENTREGABLE" : String).data = 'E' :: "NTREGABLE".data from rfl]
  have hnm : 'E' ∉ (pad2 n).data := by
    intro hmem
    rcases pad2_chars n 'E' hmem with h | h
    · exact absurd h (by decide)
    · exact absurd h (by decide)
  rw [removeAll_of_head_not_mem 'E' ("NTREGABLE" : String).data (pad2 n).data hnm]

theorem pyStartsWith_entregableName (n : Int) :
    pyStartsWith (entregableName n) "ENTREGABLE" = true := by
  show ("ENTREGABLE" : String).data.isPrefixOf ("ENTREGABLE" ++ pad2 n).data = true
  rw [String.data_append, List.isPrefixOf_iff_prefix]
  exact ⟨(pad2 n).data, rfl⟩

theorem entregableNums_append_name (existing : List String) (n : Int) :
    entregableNums (existing ++ [entregableName n]) = entregableNums existing ++ [n] := by
  unfold entregableNums
  rw [List.filter_append, List.filterMap_append]
  congr 1
  simp [List.filter_singleton, pyStartsWith_entregableName, pyRemove_entregableName,
    pyInt_pad2]

theorem mem_entregableNums_lt_next (existing : List String) :
    ∀ x ∈ entregableNums existing, x < nextEntregableNum existing := by
  intro x hx
  cases hn : entregableNums existing with
  | nil => rw [hn] at hx; simp at hx
  | cons a l =>
    rw [hn] at hx
    simp only [nextEntregableNum, hn]
    have := foldl_max_le_mem hx
    omega

theorem next_after_adding_name (existing : List String) :
    nextEntregableNum (existing ++ [entregableName (nextEntregableNum existing)]) =
      nextEntregableNum existing + 1 := by
  rw [show nextEntregableNum (existing ++ [entregableName (nextEntregableNum existing)]) =
      match entregableNums (existing ++ [entregableName (nextEntregableNum existing)]) with
      | [] => 1
      | n :: ns => ns.foldl max n + 1 from rfl]
  rw [entregableNums_append_name]
  cases hn : entregableNums existing with
  | nil =>
    simp only [List.nil_append]
    have : nextEntregableNum existing = 1 := by simp [nextEntregableNum, hn]
    rw [this]
    simp
  | cons a l =>
    simp only [List.cons_append]
    have hnext : nextEntregableNum existing = l.foldl max a + 1 := by
      simp [nextEntregableNum, hn]
    rw [hnext, List.foldl_append]
    simp only [List.foldl_cons, List.foldl_nil]
    rw [max_eq_right (by omega)]

theorem entregableName_next_fresh (existing : List String) :
    entregableName (nextEntregableNum existing) ∉ existing := by
  intro hmem
  have hin : nextEntregableNum existing ∈ entregableNums existing := by
    unfold entregableNums
    rw [List.mem_filterMap]
    refine ⟨entregableName (nextEntregableNum existing), ?_, ?_⟩
    · rw [List.mem_filter]
      exact ⟨hmem, pyStartsWith_entregableName _⟩
    · rw [pyRemove_entregableName, pyInt_pad2]
  have := mem_entregableNums_lt_next existing _ hin
  omega

/-- C6: a consolidator run assigns the bundle id `max(existing numeric
suffixes) + 1` (1 when none exist), writes only inside the new bundle's
directory, the new bundle's name never collides with an existing folder, and a
second run over the grown folder list gets the consecutive id — so two
consecutive runs produce bundles with consecutive ids and neither touches a
prior bundle's files. -/
theorem consolidator_sequential_bundles :
    ∀ (existing : List String) (docs docs2 : List ConsDoc),
      (entregableWrites existing docs).1 = nextEntregableNum existing ∧
      (∀ p ∈ (entregableWrites existing docs).2,
          p.take 2 = ["ENTREGABLES", entregableName (nextEntregableNum existing)]) ∧
      (entregableWrites (existing ++ [entregableName (nextEntregableNum existing)]) docs2).1 =
        nextEntregableNum existing + 1 ∧
      entregableName (nextEntregableNum existing) ∉ existing := by
  intro existing docs docs2
  refine ⟨rfl, ?_, ?_, entregableName_next_fresh existing⟩
  · intro p hp
    simp only [entregableWrites, List.mem_append, List.mem_flatMap, List.mem_map] at hp
    rcases hp with (⟨d, _hd, pr, _hpr, hpe⟩ | hp) | hp
    · subst hpe
      rfl
    · by_cases hany : docs.any (fun d => d.rowCount ≠ 0)
      · rw [if_pos hany, List.mem_singleton] at hp
        subst hp
        rfl
      · rw [if_neg hany] at hp
        simp at hp
    · rw [List.mem_singleton] at hp
      subst hp
      rfl
  · exact next_after_adding_name existing

/-! ## Taxonomy Classifier (`functions/separador_pdf.py`, lines 15-53 and
124-158)

`extraer_fecha_componentes` tries `datetime.strptime` with the formats
`%d/%m/%Y, %m/%d/%Y, %Y-%m-%d, %Y/%m/%d, %d-%m-%Y` in that order.  A
`strptime` pattern must consume the whole string; `%d`/`%m` accept one or two
digits within range, `%Y` exactly four digits, and the `datetime` constructor
additionally requires a positive year and a day valid for the month. -/

/-- Split a character list at every occurrence of `sep`. -/
def splitOnCh (sep : Char) : List Char → List (List Char)
  | [] => [[]]
  | c :: rest =>
    let r := splitOnCh sep rest
    if c = sep then [] :: r
    else
      match r with
      | [] => [[c]]
      | p :: ps => (c :: p) :: ps

/-- A 1-2 digit field whose value lies in `[lo, hi]` (`%d` / `%m`). -/
def parseField2 (lo hi : Nat) (p : List Char) : Option Nat :=
  if (p.length = 1 ∨ p.length = 2) ∧ allDigits p = true ∧
      lo ≤ digitsToNat p ∧ digitsToNat p ≤ hi then
    some (digitsToNat p)
  else none

/-- A four-digit year field (`%Y`). -/
def parseYear4 (p : List Char) : Option Nat :=
  if p.length = 4 ∧ allDigits p = true then some (digitsToNat p) else none

def isLeap (y : Nat) : Bool := y % 4 = 0 && (y % 100 ≠ 0 || y % 400 = 0)

def daysInMonth (y m : Nat) : Nat :=
  if m = 2 then (if isLeap y then 29 else 28)
  else if m = 4 ∨ m = 6 ∨ m = 9 ∨ m = 11 then 30
  else 31

/-- Field order of a date format. -/
inductive DOrder
  | dmy
  | mdy
  | ymd

/-- `datetime.strptime` for one `day month year` style format, returning the
`(year, month)` pair the classifier keeps. -/
def strptimeYM (sep : Char) (ord : DOrder) (cs : List Char) : Option (Nat × Nat) :=
  match splitOnCh sep cs with
  | [p1, p2, p3] =>
    let ymd? : Option (Nat × Nat × Nat) :=
      match ord with
      | .dmy =>
        (parseField2 1 31 p1).bind fun d =>
          (parseField2 1 12 p2).bind fun m =>
            (parseYear4 p3).map fun y => (y, m, d)
      | .mdy =>
        (parseField2 1 12 p1).bind fun m =>
          (parseField2 1 31 p2).bind fun d =>
            (parseYear4 p3).map fun y => (y, m, d)
      | .ymd =>
        (parseYear4 p1).bind fun y =>
          (parseField2 1 12 p2).bind fun m =>
            (parseField2 1 31 p3).map fun d => (y, m, d)
    match ymd? with
    | some (y, m, d) => if 1 ≤ y ∧ d ≤ daysInMonth y m then some (y, m) else none
    | none => none
  | _ => none

/-- First `some` of a list of attempts, in order. -/
def firstSome : List (Option α) → Option α
  | [] => none
  | some x :: _ => some x
  | none :: r => firstSome r

/-- `extraer_fecha_componentes`: `(year, month)` of the first format that
parses, `none` for an empty or unparseable date. -/
def extraer_fecha_componentes (fecha : String) : Option (Nat × Nat) :=
  let t := pyStrip fecha
  if t = "" then none
  else
    firstSome [strptimeYM '/' .dmy t.data, strptimeYM '/' .mdy t.data,
      strptimeYM '-' .ymd t.data, strptimeYM '/' .ymd t.data,
      strptimeYM '-' .dmy t.data]

/-- `obtener_tipo_documento_nombre`: blank or non-integer codes give
`sin_tipo`; table codes give their names; other integers give `tipo_<n>`. -/
def obtener_tipo_documento_nombre (t : String) : String :=
  if pyStrip t = "" then "sin_tipo"
  else
    match pyInt (pyStrip t) with
    | none => "sin_tipo"
    | some k =>
      if k = 1 then "egreso"
      else if k = 2 then "traspaso"
      else if k = 3 then "ingreso"
      else if k = 4 then "voucher"
      else "tipo_" ++ intStr k

/-- Destination path components of one document inside the archive's output
base, per `separar_pdfs_por_estructura` lines 135-158. -/
def classifyDest (fecha tipo folio : String) : List String :=
  match extraer_fecha_componentes fecha with
  | some (y, m) =>
    [intStr (y : Int), pad2 (m : Int), obtener_tipo_documento_nombre tipo, folio ++ ".pdf"]
  | none => ["sin_fecha", obtener_tipo_documento_nombre tipo, folio ++ ".pdf"]

/-- The type mapping as the claim states it: every unknown or blank code maps
to `sin_tipo`. -/
def claimTipoNombre (t : String) : String :=
  match pyInt (pyStrip t) with
  | some 1 => "egreso"
  | some 2 => "traspaso"
  | some 3 => "ingreso"
  | some 4 => "voucher"
  | _ => "sin_tipo"

/-- The classifier output as the claim states it. -/
def claimClassifyDest (fecha tipo folio : String) : List String :=
  match extraer_fecha_componentes fecha with
  | some (y, m) => [intStr (y : Int), pad2 (m : Int), claimTipoNombre tipo, folio ++ ".pdf"]
  | none => ["sin_fecha", claimTipoNombre tipo, folio ++ ".pdf"]

/-- C2 counterexample: an unknown numeric type code (`"5"`) is bucketed as
`tipo_5` by the code, not `sin_tipo` as the claim states. -/
theorem taxonomy_unknown_type_not_sin_tipo :
    classifyDest "15/03/2024" "5" "12345678" =
      ["2024", "03", "tipo_5", "12345678.pdf"] ∧
    claimClassifyDest "15/03/2024" "5" "12345678" =
      ["2024", "03", "sin_tipo", "12345678.pdf"] ∧
    classifyDest "15/03/2024" "5" "12345678" ≠
      claimClassifyDest "15/03/2024" "5" "12345678" := by
  refine ⟨by decide, by decide, by decide⟩

/-- C2 amended: the output path is `<year>/<month2digit>/<type-name>/<folio>.pdf`
with the date parsed by the five formats in order and `sin_fecha/<type-name>/`
as the flat fallback; the type table maps 1-4 to their names, a blank or
non-integer code to `sin_tipo`, and any other integer code `n` to `tipo_<n>`;
in particular `15/03/2024` with code `1` gives `2024/03/egreso/` and empty
date and code give `sin_fecha/sin_tipo/`. -/
theorem taxonomy_paths :
    (∀ fecha tipo folio y m,
        extraer_fecha_componentes fecha = some (y, m) →
        classifyDest fecha tipo folio =
          [intStr (y : Int), pad2 (m : Int), obtener_tipo_documento_nombre tipo,
            folio ++ ".pdf"]) ∧
    (∀ fecha tipo folio,
        extraer_fecha_componentes fecha = none →
        classifyDest fecha tipo folio =
          ["sin_fecha", obtener_tipo_documento_nombre tipo, folio ++ ".pdf"]) ∧
    (∀ tipo k, pyInt (pyStrip tipo) = some k →
        obtener_tipo_documento_nombre tipo =
          if k = 1 then "egreso"
          else if k = 2 then "traspaso"
          else if k = 3 then "ingreso"
          else if k = 4 then "voucher"
          else "tipo_" ++ intStr k) ∧
    (∀ tipo, pyStrip tipo = "" ∨ pyInt (pyStrip tipo) = none →
        obtener_tipo_documento_nombre tipo = "sin_tipo") ∧
    classifyDest "15/03/2024" "1" "12345678" = ["2024", "03", "egreso", "12345678.pdf"] ∧
    classifyDest "" "" "12345678" = ["sin_fecha", "sin_tipo", "12345678.pdf"] := by
  refine ⟨?_, ?_, ?_, ?_, by decide, by decide⟩
  · intro fecha tipo folio y m h
    simp [classifyDest, h]
  · intro fecha tipo folio h
    simp [classifyDest, h]
  · intro tipo k h
    have hne : ¬ pyStrip tipo = "" := by
      intro he
      rw [he, show pyInt "" = none from rfl] at h
      cases h
    rw [obtener_tipo_documento_nombre, if_neg hne, h]
  · intro tipo h
    rcases h with h | h
    · rw [obtener_tipo_documento_nombre, if_pos h]
    · by_cases he : pyStrip tipo = ""
      · rw [obtener_tipo_documento_nombre, if_pos he]
      · rw [obtener_tipo_documento_nombre, if_neg he, h]

/-- Witness for C2's amended theorem at a concrete parseable date. -/
theorem taxonomy_paths_witness :
    extraer_fecha_componentes "15/03/2024" = some (2024, 3) ∧
    classifyDest "15/03/2024" "x" "F" =
      [intStr (2024 : Int), pad2 (3 : Int), obtener_tipo_documento_nombre "x", "F.pdf"] :=
  ⟨by decide, taxonomy_paths.1 "15/03/2024" "x" "F" 2024 3 (by decide)⟩

/-! ## Page Ledger persistence (`functions/extraer_datos.py`,
`process_document_ocr`, lines 244-257 and 351-370; `app.py`, `save_data`)

A ledger row is a `csv.DictReader` dictionary, modelled as an association
list with unique keys.  `process_document_ocr` reads the CSV, appends the
missing extraction columns to the header, and rewrites the whole table with
`csv.DictWriter` (missing keys default to `restval`, the empty string).  The
byte-level CSV quoting of the Python standard library is out of scope
(spreadsheet mechanics); the table is modelled as a header row plus one list
of cell values per row. -/

/-- Dictionary lookup (`row.get(k)`). -/
def rowGet (r : List (String × String)) (k : String) : Option String :=
  match r with
  | [] => none
  | (k', v) :: rest => if k' = k then some v else rowGet rest k

/-- Dictionary assignment (`row[k] = v`). -/
def rowSet (r : List (String × String)) (k v : String) : List (String × String) :=
  match r with
  | [] => [(k, v)]
  | (k', v') :: rest => if k' = k then (k', v) :: rest else (k', v') :: rowSet rest k v

/-- The optional extraction columns appended by `process_document_ocr`. -/
def ocrColumns : List String :=
  ["folio", "q1", "q2", "rut", "fecha", "nombre", "estado", "tipo_documento",
    "nota", "ocultar"]

/-- `updated_fieldnames`: the existing header plus the missing OCR columns. -/
def updatedFieldnames (fns : List String) : List String :=
  fns ++ ocrColumns.filter (fun c => ¬ fns.contains c)

/-- `csv.DictWriter.writerows` preceded by `writeheader`: one list of cells
per row, each cell the row's value at that column (empty-string `restval` for
a missing key). -/
def writeTable (fns : List String) (rows : List (List (String × String))) :
    List (List String) :=
  fns :: rows.map (fun r => fns.map (fun c => (rowGet r c).getD ""))

/-- `csv.DictReader`: the first row is the header, every later row is keyed by
it. -/
def readTable (table : List (List String)) :
    List String × List (List (String × String)) :=
  match table with
  | [] => ([], [])
  | h :: rs => (h, rs.map (fun vs => h.zip vs))

theorem rowGet_zip_map (f : String → String) :
    ∀ (fns : List String), fns.Nodup →
      ∀ c ∈ fns, rowGet (fns.zip (fns.map f)) c = some (f c) := by
  intro fns
  induction fns with
  | nil => intro _ c hc; cases hc
  | cons k rest ih =>
    intro hnd c hc
    rw [List.nodup_cons] at hnd
    rcases List.mem_cons.mp hc with rfl | hc'
    · simp [List.zip_cons_cons, rowGet]
    · have hk : k ≠ c := fun he => hnd.1 (he ▸ hc')
      simp only [List.map_cons, List.zip_cons_cons, rowGet, if_neg hk]
      exact ih hnd.2 c hc'

theorem nodup_updatedFieldnames (fns : List String) (h : fns.Nodup) :
    (updatedFieldnames fns).Nodup := by
  rw [updatedFieldnames, List.nodup_append]
  refine ⟨h, List.Nodup.filter _ (by decide), ?_⟩
  intro a ha hb
  have h2 := List.of_mem_filter hb
  simp only [decide_eq_true_eq] at h2
  exact h2 (by simpa [List.contains, List.elem_iff] using ha)

/-- C8: writing the ledger and re-reading it preserves every field of every
row — the header keeps every pre-existing column (the OCR columns are only
appended), the read-back header is the written one, and the read-back value
of every column of every row is exactly the written row's value there (the
empty-string default for a key the row did not carry). -/
theorem ledger_write_read_round_trip :
    ∀ (fns : List String) (rows : List (List (String × String))), fns.Nodup →
      (∀ c ∈ fns, c ∈ updatedFieldnames fns) ∧
      (readTable (writeTable (updatedFieldnames fns) rows)).1 = updatedFieldnames fns ∧
      (readTable (writeTable (updatedFieldnames fns) rows)).2 =
        rows.map (fun r =>
          (updatedFieldnames fns).zip
            ((updatedFieldnames fns).map (fun c => (rowGet r c).getD ""))) ∧
      ∀ r ∈ rows, ∀ c ∈ updatedFieldnames fns,
        rowGet ((updatedFieldnames fns).zip
            ((updatedFieldnames fns).map (fun c => (rowGet r c).getD ""))) c =
          some ((rowGet r c).getD "") := by
  intro fns rows hnd
  refine ⟨?_, rfl, ?_, ?_⟩
  · intro c hc
    exact List.mem_append.mpr (Or.inl hc)
  · simp only [writeTable, readTable, List.map_map]
    rfl
  · intro r _hr c hc
    exact rowGet_zip_map _ (updatedFieldnames fns) (nodup_updatedFieldnames fns hnd) c hc

/-- Witness for C8 at a concrete ledger: one pre-OCR header, one row whose
`nombre_img` value even contains a comma, plus a stored note. -/
theorem ledger_write_read_round_trip_witness :
    (["numero_hoja", "nombre_img", "path_img", "ocultar"] : List String).Nodup ∧
    (∀ c ∈ (["numero_hoja", "nombre_img", "path_img", "ocultar"] : List String),
        c ∈ updatedFieldnames ["numero_hoja", "nombre_img", "path_img", "ocultar"]) ∧
    rowGet ((updatedFieldnames ["numero_hoja", "nombre_img", "path_img", "ocultar"]).zip
        ((updatedFieldnames ["numero_hoja", "nombre_img", "path_img", "ocultar"]).map
          (fun c => (rowGet [("numero_hoja", "1"), ("nombre_img", "a, b.jpg"),
            ("path_img", "imagenes/0001.jpg"), ("ocultar", "NO")] c).getD ""))) "nombre_img" =
      some "a, b.jpg" := by
  have h := ledger_write_read_round_trip
      ["numero_hoja", "nombre_img", "path_img", "ocultar"]
      [[("numero_hoja", "1"), ("nombre_img", "a, b.jpg"),
        ("path_img", "imagenes/0001.jpg"), ("ocultar", "NO")]] (by decide)
  refine ⟨by decide, h.1, ?_⟩
  have h4 := h.2.2.2 [("numero_hoja", "1"), ("nombre_img", "a, b.jpg"),
        ("path_img", "imagenes/0001.jpg"), ("ocultar", "NO")] (by decide)
      "nombre_img" (by decide)
  rw [h4]
  decide

/-! ## Re-extraction overwrite semantics (`functions/extraer_datos.py`,
lines 324-334)

After OCR of one page, the row is updated in place: the freshly extracted
values always replace `folio`, `q1`, `q2`, `rut`, `fecha`, `nombre` and
`tipo_documento`, while `estado`, `nota` and `ocultar` keep their stored
values (`row.get(key, default)`) when the key is already present. -/

structure ExtractedFields where
  folio : String
  q1 : String
  q2 : String
  rut : String
  fecha : String
  nombre : String
  estado : String
  tipo_documento : String

/-- Lines 324-334 of `process_document_ocr`. -/
def updateRowOcr (row : List (String × String)) (e : ExtractedFields) :
    List (String × String) :=
  let r1 := rowSet row "folio" e.folio
  let r2 := rowSet r1 "q1" e.q1
  let r3 := rowSet r2 "q2" e.q2
  let r4 := rowSet r3 "rut" e.rut
  let r5 := rowSet r4 "fecha" e.fecha
  let r6 := rowSet r5 "nombre" e.nombre
  let r7 := rowSet r6 "estado" ((rowGet r6 "estado").getD e.estado)
  let r8 := rowSet r7 "tipo_documento" e.tipo_documento
  let r9 := rowSet r8 "nota" ((rowGet r8 "nota").getD "")
  rowSet r9 "ocultar" ((rowGet r9 "ocultar").getD "NO")

theorem rowGet_rowSet_same (r : List (String × String)) (k v : String) :
    rowGet (rowSet r k v) k = some v := by
  induction r with
  | nil => simp [rowSet, rowGet]
  | cons p rest ih =>
    obtain ⟨k', v'⟩ := p
    by_cases h : k' = k
    · simp [rowSet, rowGet, h]
    · simp only [rowSet, if_neg h, rowGet, if_neg h]
      exact ih

theorem rowGet_rowSet_other (r : List (String × String)) (k v k2 : String)
    (h : k ≠ k2) : rowGet (rowSet r k v) k2 = rowGet r k2 := by
  induction r with
  | nil => simp [rowSet, rowGet, h]
  | cons p rest ih =>
    obtain ⟨k', v'⟩ := p
    by_cases h1 : k' = k
    · subst h1
      simp [rowSet, rowGet, h]
    · simp only [rowSet, if_neg h1, rowGet]
      by_cases h2 : k' = k2
      · simp [h2]
      · simp only [if_neg h2]
        exact ih

/-- C10: re-running extraction over a row that already carries the optional
columns always overwrites `folio`, `q1`, `q2`, `rut`, `fecha`, `nombre` and
`tipo_documento` with the freshly extracted values, while the pre-existing
`estado`, `nota` and `ocultar` values are kept unchanged. -/
theorem reextraction_overwrites_and_preserves
    (row : List (String × String)) (e : ExtractedFields)
    (s nt oc : String)
    (hs : rowGet row "estado" = some s)
    (hn : rowGet row "nota" = some nt)
    (ho : rowGet row "ocultar" = some oc) :
    rowGet (updateRowOcr row e) "folio" = some e.folio ∧
    rowGet (updateRowOcr row e) "q1" = some e.q1 ∧
    rowGet (updateRowOcr row e) "q2" = some e.q2 ∧
    rowGet (updateRowOcr row e) "rut" = some e.rut ∧
    rowGet (updateRowOcr row e) "fecha" = some e.fecha ∧
    rowGet (updateRowOcr row e) "nombre" = some e.nombre ∧
    rowGet (updateRowOcr row e) "tipo_documento" = some e.tipo_documento ∧
    rowGet (updateRowOcr row e) "estado" = some s ∧
    rowGet (updateRowOcr row e) "nota" = some nt ∧
    rowGet (updateRowOcr row e) "ocultar" = some oc := by
  refine ⟨?_, ?_, ?_, ?_, ?_, ?_, ?_, ?_, ?_, ?_⟩ <;>
    simp [updateRowOcr, rowGet_rowSet_same, rowGet_rowSet_other, hs, hn, ho]

/-- Witness for C10 at a concrete human-edited row. -/
theorem reextraction_overwrites_and_preserves_witness :
    rowGet [("folio", "11111111"), ("estado", "2"), ("nota", "revisar"),
        ("ocultar", "SI"), ("tipo_documento", "4")] "estado" = some "2" ∧
    rowGet (updateRowOcr [("folio", "11111111"), ("estado", "2"), ("nota", "revisar"),
        ("ocultar", "SI"), ("tipo_documento", "4")]
        ⟨"22222222", "q1t", "q2t", "1.111.111-1", "01/01/2020", "NAME", "1", "3"⟩)
      "tipo_documento" = some "3" ∧
    rowGet (updateRowOcr [("folio", "11111111"), ("estado", "2"), ("nota", "revisar"),
        ("ocultar", "SI"), ("tipo_documento", "4")]
        ⟨"22222222", "q1t", "q2t", "1.111.111-1", "01/01/2020", "NAME", "1", "3"⟩)
      "estado" = some "2" := by
  refine ⟨by decide, ?_, ?_⟩
  · exact (reextraction_overwrites_and_preserves _ _ "2" "revisar" "SI"
      (by decide) (by decide) (by decide)).2.2.2.2.2.2.1
  · exact (reextraction_overwrites_and_preserves _ _ "2" "revisar" "SI"
      (by decide) (by decide) (by decide)).2.2.2.2.2.2.2.1

/-! ## Regular-expression search (`functions/extraer_datos.py`)

`re.search` is modelled by a scan that tries a pattern matcher at every
position from left to right.  A matcher receives the character before the
position (for lookbehind and word-boundary checks) and the suffix, and
returns the matched characters. -/

/-- Left-to-right search (`re.search`): first position where the matcher
fires. -/
def scanSearch (m : Option Char → List Char → Option (List Char)) :
    Option Char → List Char → Option (List Char)
  | prev, [] => m prev []
  | prev, c :: rest =>
    match m prev (c :: rest) with
    | some r => some r
    | none => scanSearch m (some c) rest

/-- The character before position `i`, if any. -/
def prevAt (cs : List Char) (i : Nat) : Option Char :=
  if i = 0 then none else cs[i - 1]?

/-- Index-based first match at or after position `i`. -/
def searchFrom (m : Option Char → List Char → Option (List Char))
    (cs : List Char) (i : Nat) : Option (List Char) :=
  if _h : i < cs.length then
    match m (prevAt cs i) (cs.drop i) with
    | some r => some r
    | none => searchFrom m cs (i + 1)
  else m (prevAt cs i) (cs.drop i)
termination_by cs.length - i

theorem scanSearch_eq_searchFrom
    (m : Option Char → List Char → Option (List Char)) (cs : List Char) :
    ∀ i, scanSearch m (prevAt cs i) (cs.drop i) = searchFrom m cs i := by
  have H : ∀ k i, cs.length - i = k →
      scanSearch m (prevAt cs i) (cs.drop i) = searchFrom m cs i := by
    intro k
    induction k with
    | zero =>
      intro i hi
      have hle : cs.length ≤ i := by omega
      rw [searchFrom, dif_neg (by omega)]
      rw [List.drop_eq_nil_of_le hle]
      rfl
    | succ k ih =>
      intro i hi
      have hlt : i < cs.length := by omega
      rw [searchFrom, dif_pos hlt]
      rw [List.drop_eq_getElem_cons hlt]
      show (match m (prevAt cs i) (cs[i] :: cs.drop (i + 1)) with
            | some r => some r
            | none => scanSearch m (some cs[i]) (cs.drop (i + 1))) = _
      cases hm : m (prevAt cs i) (cs[i] :: cs.drop (i + 1)) with
      | some r => rfl
      | none =>
        have hp : some cs[i] = prevAt cs (i + 1) := by
          rw [prevAt, if_neg (by omega)]
          simp only [Nat.add_sub_cancel]
          exact (List.getElem?_eq_getElem hlt).symm
        rw [hp]
        exact ih (i + 1) (by omega)
  intro i
  exact H (cs.length - i) i rfl

theorem searchFrom_some (m : Option Char → List Char → Option (List Char))
    (cs : List Char) :
    ∀ i r, searchFrom m cs i = some r →
      ∃ j, i ≤ j ∧ m (prevAt cs j) (cs.drop j) = some r ∧
        ∀ l2, i ≤ l2 → l2 < j → m (prevAt cs l2) (cs.drop l2) = none := by
  have H : ∀ k i r, cs.length - i = k → searchFrom m cs i = some r →
      ∃ j, i ≤ j ∧ m (prevAt cs j) (cs.drop j) = some r ∧
        ∀ l2, i ≤ l2 → l2 < j → m (prevAt cs l2) (cs.drop l2) = none := by
    intro k
    induction k with
    | zero =>
      intro i r hi hs
      rw [searchFrom, dif_neg (by omega)] at hs
      exact ⟨i, le_refl i, hs, fun l2 h1 h2 => absurd (lt_of_le_of_lt h1 h2) (lt_irrefl i)⟩
    | succ k ih =>
      intro i r hi hs
      have hlt : i < cs.length := by omega
      rw [searchFrom, dif_pos hlt] at hs
      cases hm : m (prevAt cs i) (cs.drop i) with
      | some r2 =>
        rw [hm] at hs
        simp only [Option.some_inj] at hs
        subst hs
        exact ⟨i, le_refl i, hm, fun l2 h1 h2 => absurd (lt_of_le_of_lt h1 h2) (lt_irrefl i)⟩
      | none =>
        rw [hm] at hs
        obtain ⟨j, hj1, hj2, hj3⟩ := ih (i + 1) r (by omega) hs
        refine ⟨j, by omega, hj2, ?_⟩
        intro l2 h1 h2
        rcases Nat.eq_or_lt_of_le h1 with rfl | h1'
        · exact hm
        · exact hj3 l2 (by omega) h2
  intro i r hs
  exact H (cs.length - i) i r rfl hs

theorem searchFrom_none (m : Option Char → List Char → Option (List Char))
    (cs : List Char) :
    ∀ i, searchFrom m cs i = none →
      ∀ j, i ≤ j → j ≤ cs.length → m (prevAt cs j) (cs.drop j) = none := by
  have H : ∀ k i, cs.length - i = k → searchFrom m cs i = none →
      ∀ j, i ≤ j → j ≤ cs.length → m (prevAt cs j) (cs.drop j) = none := by
    intro k
    induction k with
    | zero =>
      intro i hi hs j h1 h2
      rw [searchFrom, dif_neg (by omega)] at hs
      have : j = i := by omega
      subst this
      exact hs
    | succ k ih =>
      intro i hi hs j h1 h2
      have hlt : i < cs.length := by omega
      rw [searchFrom, dif_pos hlt] at hs
      cases hm : m (prevAt cs i) (cs.drop i) with
      | some r2 => rw [hm] at hs; cases hs
      | none =>
        rw [hm] at hs
        rcases Nat.eq_or_lt_of_le h1 with rfl | h1'
        · exact hm
        · exact ih (i + 1) (by omega) hs j (by omega) h2
  intro i hs j h1 h2
  exact H (cs.length - i) i rfl hs j h1 h2

/-! ## Folio token extraction (`extract_first_folio_token`, lines 20-24)

The regex is `(?<!\d)(\d{8})(?![\d-])`: eight digits not preceded by a digit
and not followed by a digit or a hyphen. -/

def prevNotDigit (prev : Option Char) : Bool :=
  match prev with
  | none => true
  | some p => !isDigitCh p

def headNotDigitHyphen (cs : List Char) : Bool :=
  match cs with
  | [] => true
  | c :: _ => !(isDigitCh c || c = '-')

/-- The regex of `extract_first_folio_token`, applied at one position. -/
def folioMatchAt (prev : Option Char) (cs : List Char) : Option (List Char) :=
  if prevNotDigit prev = true ∧ (cs.take 8).length = 8 ∧
      (cs.take 8).all isDigitCh = true ∧ headNotDigitHyphen (cs.drop 8) = true then
    some (cs.take 8)
  else none

/-- `extract_first_folio_token`: first match of the folio regex. -/
def extract_first_folio_token (s : String) : Option String :=
  (scanSearch folioMatchAt none s.data).map (fun cs => ⟨cs⟩)

/-- The matcher as the claim states it: the run may additionally not be
preceded by a hyphen. -/
def claimFolioMatchAt (prev : Option Char) (cs : List Char) : Option (List Char) :=
  if (match prev with
      | none => true
      | some p => !(isDigitCh p || p = '-')) = true ∧ (cs.take 8).length = 8 ∧
      (cs.take 8).all isDigitCh = true ∧ headNotDigitHyphen (cs.drop 8) = true then
    some (cs.take 8)
  else none

/-- First folio token as the claim states it. -/
def claimFolioToken (s : String) : Option String :=
  (scanSearch claimFolioMatchAt none s.data).map (fun cs => ⟨cs⟩)

/-- C3 counterexample: the code's lookbehind rejects only a digit, not a
hyphen — on `"-12345678"` the code returns the token while the claim's rule
returns none. -/
theorem folio_hyphen_before_run_counterexample :
    extract_first_folio_token "-12345678" = some "12345678" ∧
    claimFolioToken "-12345678" = none ∧
    extract_first_folio_token "-12345678" ≠ claimFolioToken "-12345678" := by
  refine ⟨by decide, by decide, by decide⟩

/-- An isolated eight-digit run at position `i`: eight digits, the character
before (if any) is not a digit, the character after (if any) is neither a
digit nor a hyphen. -/
def isolatedRunAt (cs : List Char) (i : Nat) : Prop :=
  (∀ k < 8, ∃ c, cs[i + k]? = some c ∧ isDigitCh c = true) ∧
  (i = 0 ∨ ∀ c, cs[i - 1]? = some c → isDigitCh c = false) ∧
  (∀ c, cs[i + 8]? = some c → isDigitCh c = false ∧ c ≠ '-')

/-- A run of nine digits starting at position `i`. -/
def nineRunAt (cs : List Char) (i : Nat) : Prop :=
  ∀ k < 9, ∃ c, cs[i + k]? = some c ∧ isDigitCh c = true

theorem getElem?_some_lt {l : List Char} {n : Nat} {c : Char}
    (h : l[n]? = some c) : n < l.length := by
  rcases List.getElem?_eq_some.mp h with ⟨hlt, -⟩
  exact hlt

theorem headNotDigitHyphen_of (cs2 : List Char) (m : Nat)
    (ha : ∀ c, cs2[m]? = some c → isDigitCh c = false ∧ c ≠ '-') :
    headNotDigitHyphen (cs2.drop m) = true := by
  cases hdd : cs2.drop m with
  | nil => rfl
  | cons c rest =>
    have hc : cs2[m]? = some c := by
      have hh : (cs2.drop m).head? = some c := by rw [hdd]; rfl
      rw [List.head?_eq_getElem?, List.getElem?_drop, Nat.add_zero] at hh
      exact hh
    show (!(isDigitCh c || c = '-')) = true
    have h2 := ha c hc
    simp [h2.1, h2.2]

theorem of_headNotDigitHyphen {cs2 : List Char} (h : headNotDigitHyphen cs2 = true) :
    ∀ c, cs2.head? = some c → isDigitCh c = false ∧ c ≠ '-' := by
  intro c hc
  cases cs2 with
  | nil => cases hc
  | cons c2 rest =>
    rw [List.head?_cons, Option.some_inj] at hc
    have h2 : (!(isDigitCh c2 || c2 = '-')) = true := h
    simp only [Bool.not_eq_true', Bool.or_eq_false_iff, decide_eq_false_iff_not] at h2
    rw [← hc]
    exact h2

theorem folioMatchAt_of_isolated {cs : List Char} {i : Nat}
    (h : isolatedRunAt cs i) :
    folioMatchAt (prevAt cs i) (cs.drop i) = some ((cs.drop i).take 8) := by
  obtain ⟨h8, hb, ha⟩ := h
  have hlen8 : i + 8 ≤ cs.length := by
    obtain ⟨c, hc, -⟩ := h8 7 (by omega)
    have := getElem?_some_lt hc
    omega
  rw [folioMatchAt, if_pos]
  refine ⟨?_, ?_, ?_, ?_⟩
  · cases hp : prevAt cs i with
    | none => rfl
    | some p =>
      show (!isDigitCh p) = true
      rw [prevAt] at hp
      rcases hb with rfl | hb
      · rw [if_pos rfl] at hp; cases hp
      · by_cases hi0 : i = 0
        · rw [if_pos hi0] at hp; cases hp
        · rw [if_neg hi0] at hp
          rw [hb p hp]
          rfl
  · simp only [List.length_take, List.length_drop]
    omega
  · rw [List.all_eq_true]
    intro c hc
    rw [List.mem_iff_getElem?] at hc
    obtain ⟨k, hk⟩ := hc
    have hklt : k < 8 := by
      have := getElem?_some_lt hk
      simp only [List.length_take, List.length_drop] at this
      omega
    rw [List.getElem?_take_of_lt hklt, List.getElem?_drop] at hk
    obtain ⟨c2, hc2, hd2⟩ := h8 k hklt
    rw [hk] at hc2
    cases hc2
    exact hd2
  · apply headNotDigitHyphen_of
    intro c hc
    rw [List.getElem?_drop] at hc
    exact ha c hc

theorem isolated_of_folioMatchAt {cs : List Char} {i : Nat} {r : List Char}
    (h : folioMatchAt (prevAt cs i) (cs.drop i) = some r) :
    isolatedRunAt cs i ∧ r = (cs.drop i).take 8 := by
  rw [folioMatchAt] at h
  by_cases hc : prevNotDigit (prevAt cs i) = true ∧ ((cs.drop i).take 8).length = 8 ∧
      ((cs.drop i).take 8).all isDigitCh = true ∧
      headNotDigitHyphen ((cs.drop i).drop 8) = true
  · rw [if_pos hc] at h
    obtain ⟨hprev, hlen, hall, hafter⟩ := hc
    simp only [Option.some_inj] at h
    have hklen : i + 8 ≤ cs.length := by
      simp only [List.length_take, List.length_drop] at hlen
      omega
    refine ⟨⟨?_, ?_, ?_⟩, h.symm⟩
    · intro k hk
      have hik : i + k < cs.length := by omega
      refine ⟨cs[i + k], List.getElem?_eq_getElem hik, ?_⟩
      rw [List.all_eq_true] at hall
      refine hall cs[i + k] ?_
      rw [List.mem_iff_getElem?]
      refine ⟨k, ?_⟩
      rw [List.getElem?_take_of_lt hk, List.getElem?_drop]
      exact List.getElem?_eq_getElem hik
    · by_cases hi0 : i = 0
      · exact Or.inl hi0
      · refine Or.inr ?_
        intro c hgc
        have hpa : prevAt cs i = some c := by
          rw [prevAt, if_neg hi0]
          exact hgc
        rw [hpa] at hprev
        have h2 : (!isDigitCh c) = true := hprev
        simpa using h2
    · intro c hgc
      apply of_headNotDigitHyphen hafter
      rw [List.head?_eq_getElem?, List.getElem?_drop, List.getElem?_drop]
      rw [show i + (8 + 0) = i + 8 from by omega]
      exact hgc
  · rw [if_neg hc] at h
    cases h

/-- C3 amended: `extract_first_folio_token` returns the first substring of
exactly 8 digits that is not immediately preceded by another digit and not
immediately followed by another digit or a hyphen, and returns none when no
such run exists; consequently no position of a 9-digit run is isolated, so no
8-digit window of such a run is ever the match. -/
theorem folio_first_isolated_run (s : String) :
    (∀ t, extract_first_folio_token s = some t →
      ∃ i, isolatedRunAt s.data i ∧ t = ⟨(s.data.drop i).take 8⟩ ∧
        ∀ j < i, ¬ isolatedRunAt s.data j) ∧
    (extract_first_folio_token s = none → ∀ i, ¬ isolatedRunAt s.data i) ∧
    (∀ i j, nineRunAt s.data i → isolatedRunAt s.data j →
      ¬(i ≤ j ∧ j + 8 ≤ i + 9)) := by
  refine ⟨?_, ?_, ?_⟩
  · intro t ht
    rw [extract_first_folio_token] at ht
    cases hsc : scanSearch folioMatchAt none s.data with
    | none => rw [hsc] at ht; cases ht
    | some r =>
      rw [hsc] at ht
      simp only [Option.map_some', Option.some_inj] at ht
      have hs0 : searchFrom folioMatchAt s.data 0 = some r := by
        have := scanSearch_eq_searchFrom folioMatchAt s.data 0
        rw [prevAt, if_pos rfl, List.drop_zero] at this
        rw [← this, hsc]
      obtain ⟨j, -, hj2, hj3⟩ := searchFrom_some folioMatchAt s.data 0 r hs0
      obtain ⟨hiso, hr⟩ := isolated_of_folioMatchAt hj2
      refine ⟨j, hiso, by rw [← ht, hr], ?_⟩
      intro l2 hl2 hiso2
      have := folioMatchAt_of_isolated hiso2
      rw [hj3 l2 (by omega) hl2] at this
      cases this
  · intro hnone i hiso
    rw [extract_first_folio_token] at hnone
    cases hsc : scanSearch folioMatchAt none s.data with
    | some r => rw [hsc] at hnone; cases hnone
    | none =>
      have hs0 : searchFrom folioMatchAt s.data 0 = none := by
        have := scanSearch_eq_searchFrom folioMatchAt s.data 0
        rw [prevAt, if_pos rfl, List.drop_zero] at this
        rw [← this, hsc]
      have hilen : i ≤ s.data.length := by
        obtain ⟨c, hc, -⟩ := hiso.1 0 (by omega)
        have := getElem?_some_lt hc
        omega
      have := searchFrom_none folioMatchAt s.data 0 hs0 i (by omega) hilen
      rw [folioMatchAt_of_isolated hiso] at this
      cases this
  · rintro i j h9 hiso ⟨hij, hj8⟩
    have : j = i ∨ j = i + 1 := by omega
    rcases this with rfl | rfl
    · obtain ⟨c, hc, hd⟩ := h9 8 (by omega)
      exact absurd hd (by simpa using (hiso.2.2 c hc).1)
    · rcases hiso.2.1 with h0 | hb
      · omega
      · obtain ⟨c, hc, hd⟩ := h9 0 (by omega)
        rw [Nat.add_zero] at hc
        have := hb c (by simpa using hc)
        rw [this] at hd
        cases hd

/-- Witness for C3's amended theorem at a concrete text. -/
theorem folio_first_isolated_run_witness :
    extract_first_folio_token "id 12345678 ok" = some "12345678" ∧
    ∃ i, isolatedRunAt ("id 12345678 ok" : String).data i ∧
      ("12345678" : String) = ⟨(("id 12345678 ok" : String).data.drop i).take 8⟩ ∧
      ∀ j < i, ¬ isolatedRunAt ("id 12345678 ok" : String).data j :=
  ⟨by decide, (folio_first_isolated_run "id 12345678 ok").1 "12345678" (by decide)⟩

/-! ## RUT extraction (`extract_rut_from_text`, lines 47-104)

The code folds `,` and `:` to `.`, then tries three word-boundary-anchored
patterns in priority order: `\b\d{1,2}\.\d{3}\.\d{3}-[\dkK]\b`,
`\b\d{7,8}-[\dkK]\b`, `\b\d{7,9}\b`; the first match of the first matching
pattern is returned uppercased, else the empty string.  `\b` is modelled over
ASCII word characters (letters, digits, underscore). -/

def isWordCh (c : Char) : Bool := c.isAlpha || isDigitCh c || c = '_'

def prevNotWord (prev : Option Char) : Bool :=
  match prev with
  | none => true
  | some p => !isWordCh p

def nextNotWord (cs : List Char) : Bool :=
  match cs with
  | [] => true
  | c :: _ => !isWordCh c

/-- Exactly `k` digits at the head, returning them and the rest. -/
def takeDigits (k : Nat) (cs : List Char) : Option (List Char × List Char) :=
  if (cs.take k).length = k ∧ (cs.take k).all isDigitCh = true then
    some (cs.take k, cs.drop k)
  else none

/-- A literal character at the head. -/
def expectCh (c : Char) (cs : List Char) : Option (List Char) :=
  match cs with
  | c2 :: rest => if c2 = c then some rest else none
  | [] => none

/-- The RUT check digit class `[\dkK]` (case-insensitive `k`). -/
def isChk (c : Char) : Bool := isDigitCh c || c = 'k' || c = 'K'

/-- Pattern 1 after its 1-2 lead digits: `\.\d{3}\.\d{3}-[\dkK]\b`. -/
def p1Tail (lead cs : List Char) : Option (List Char) :=
  (expectCh '.' cs).bind fun cs1 =>
  (takeDigits 3 cs1).bind fun b =>
  (expectCh '.' b.2).bind fun cs2 =>
  (takeDigits 3 cs2).bind fun c3 =>
  (expectCh '-' c3.2).bind fun cs3 =>
  match cs3 with
  | [] => none
  | k :: rest =>
    if isChk k = true ∧ nextNotWord rest = true then
      some (lead ++ '.' :: b.1 ++ '.' :: c3.1 ++ ['-', k])
    else none

/-- `\b\d{1,2}\.\d{3}\.\d{3}-[\dkK]\b` at one position (greedy lead). -/
def rutP1At (prev : Option Char) (cs : List Char) : Option (List Char) :=
  if prevNotWord prev = true then
    match (takeDigits 2 cs).bind fun a => p1Tail a.1 a.2 with
    | some m => some m
    | none => (takeDigits 1 cs).bind fun a => p1Tail a.1 a.2
  else none

/-- Pattern 2 after its lead digits: `-[\dkK]\b`. -/
def p2Tail (lead cs : List Char) : Option (List Char) :=
  (expectCh '-' cs).bind fun cs1 =>
  match cs1 with
  | [] => none
  | k :: rest =>
    if isChk k = true ∧ nextNotWord rest = true then some (lead ++ ['-', k]) else none

/-- `\b\d{7,8}-[\dkK]\b` at one position (greedy lead). -/
def rutP2At (prev : Option Char) (cs : List Char) : Option (List Char) :=
  if prevNotWord prev = true then
    match (takeDigits 8 cs).bind fun a => p2Tail a.1 a.2 with
    | some m => some m
    | none => (takeDigits 7 cs).bind fun a => p2Tail a.1 a.2
  else none

/-- `\d{k}\b` attempt for pattern 3. -/
def p3Try (k : Nat) (cs : List Char) : Option (List Char) :=
  (takeDigits k cs).bind fun a =>
    if nextNotWord a.2 = true then some a.1 else none

/-- `\b\d{7,9}\b` at one position (greedy). -/
def rutP3At (prev : Option Char) (cs : List Char) : Option (List Char) :=
  if prevNotWord prev = true then
    match p3Try 9 cs with
    | some m => some m
    | none =>
      match p3Try 8 cs with
      | some m => some m
      | none => p3Try 7 cs
  else none

/-- `text.replace(',', '.').replace(':', '.')`. -/
def foldPunct (cs : List Char) : List Char :=
  cs.map (fun c => if c = ',' ∨ c = ':' then '.' else c)

/-- `extract_rut_from_text`: empty text gives `""`; otherwise the first match
of the first matching pattern on the folded text, uppercased, else `""`. -/
def extract_rut_from_text (s : String) : String :=
  if s = "" then ""
  else
    match scanSearch rutP1At none (foldPunct s.data) with
    | some m => ⟨m.map Char.toUpper⟩
    | none =>
      match scanSearch rutP2At none (foldPunct s.data) with
      | some m => ⟨m.map Char.toUpper⟩
      | none =>
        match scanSearch rutP3At none (foldPunct s.data) with
        | some m => ⟨m.map Char.toUpper⟩
        | none => ""

/-- Pattern 1 as the claim writes it, without the word-boundary anchors. -/
def claimP1Tail (lead cs : List Char) : Option (List Char) :=
  (expectCh '.' cs).bind fun cs1 =>
  (takeDigits 3 cs1).bind fun b =>
  (expectCh '.' b.2).bind fun cs2 =>
  (takeDigits 3 cs2).bind fun c3 =>
  (expectCh '-' c3.2).bind fun cs3 =>
  match cs3 with
  | [] => none
  | k :: _ => if isChk k = true then some (lead ++ '.' :: b.1 ++ '.' :: c3.1 ++ ['-', k]) else none

def claimRutP1At (_prev : Option Char) (cs : List Char) : Option (List Char) :=
  match (takeDigits 2 cs).bind fun a => claimP1Tail a.1 a.2 with
  | some m => some m
  | none => (takeDigits 1 cs).bind fun a => claimP1Tail a.1 a.2

def claimP2Tail (lead cs : List Char) : Option (List Char) :=
  (expectCh '-' cs).bind fun cs1 =>
  match cs1 with
  | [] => none
  | k :: _ => if isChk k = true then some (lead ++ ['-', k]) else none

def claimRutP2At (_prev : Option Char) (cs : List Char) : Option (List Char) :=
  match (takeDigits 8 cs).bind fun a => claimP2Tail a.1 a.2 with
  | some m => some m
  | none => (takeDigits 7 cs).bind fun a => claimP2Tail a.1 a.2

def claimRutP3At (_prev : Option Char) (cs : List Char) : Option (List Char) :=
  match (takeDigits 9 cs).map (fun a => a.1) with
  | some m => some m
  | none =>
    match (takeDigits 8 cs).map (fun a => a.1) with
    | some m => some m
    | none => (takeDigits 7 cs).map (fun a => a.1)

/-- RUT extraction as the claim states it (patterns without anchors). -/
def claimRutFromText (s : String) : String :=
  if s = "" then ""
  else
    match scanSearch claimRutP1At none (foldPunct s.data) with
    | some m => ⟨m.map Char.toUpper⟩
    | none =>
      match scanSearch claimRutP2At none (foldPunct s.data) with
      | some m => ⟨m.map Char.toUpper⟩
      | none =>
        match scanSearch claimRutP3At none (foldPunct s.data) with
        | some m => ⟨m.map Char.toUpper⟩
        | none => ""

/-- C7 counterexample: the code's patterns are word-boundary anchored, so on
`"A12345678"` no pattern matches and the code returns `""`, while the claim's
bare pattern 3 would match `"12345678"` inside the word. -/
theorem rut_word_boundary_counterexample :
    extract_rut_from_text "A12345678" = "" ∧
    claimRutFromText "A12345678" = "12345678" ∧
    extract_rut_from_text "A12345678" ≠ claimRutFromText "A12345678" := by
  refine ⟨by decide, by decide, by decide⟩

theorem scanSearch_zero (m : Option Char → List Char → Option (List Char))
    (cs : List Char) : scanSearch m none cs = searchFrom m cs 0 := by
  have h := scanSearch_eq_searchFrom m cs 0
  rw [prevAt, if_pos rfl, List.drop_zero] at h
  exact h

theorem takeDigits_some {k : Nat} {cs : List Char} {pr : List Char × List Char}
    (h : takeDigits k cs = some pr) :
    pr.1.length = k ∧ pr.1.all isDigitCh = true ∧ pr.2 = cs.drop k := by
  rw [takeDigits] at h
  by_cases hc : (cs.take k).length = k ∧ (cs.take k).all isDigitCh = true
  · rw [if_pos hc] at h
    cases h
    exact ⟨hc.1, hc.2, rfl⟩
  · rw [if_neg hc] at h
    cases h

theorem p1Tail_shape {lead cs m : List Char} (h : p1Tail lead cs = some m) :
    ∃ b c k, m = lead ++ '.' :: b ++ '.' :: c ++ ['-', k] ∧
      b.length = 3 ∧ b.all isDigitCh = true ∧
      c.length = 3 ∧ c.all isDigitCh = true ∧ isChk k = true := by
  rw [p1Tail] at h
  cases h1 : expectCh '.' cs with
  | none => rw [h1, Option.none_bind] at h; cases h
  | some cs1 =>
    rw [h1, Option.some_bind] at h
    cases h2 : takeDigits 3 cs1 with
    | none => rw [h2, Option.none_bind] at h; cases h
    | some b =>
      rw [h2, Option.some_bind] at h
      cases h3 : expectCh '.' b.2 with
      | none => rw [h3, Option.none_bind] at h; cases h
      | some cs2 =>
        rw [h3, Option.some_bind] at h
        cases h4 : takeDigits 3 cs2 with
        | none => rw [h4, Option.none_bind] at h; cases h
        | some c3 =>
          rw [h4, Option.some_bind] at h
          cases h5 : expectCh '-' c3.2 with
          | none => rw [h5, Option.none_bind] at h; cases h
          | some cs3 =>
            rw [h5, Option.some_bind] at h
            cases cs3 with
            | nil => cases h
            | cons k rest =>
              dsimp only at h
              by_cases h6 : isChk k = true ∧ nextNotWord rest = true
              · rw [if_pos h6] at h
                cases h
                obtain ⟨hb1, hb2, -⟩ := takeDigits_some h2
                obtain ⟨hc1, hc2, -⟩ := takeDigits_some h4
                exact ⟨b.1, c3.1, k, rfl, hb1, hb2, hc1, hc2, h6.1⟩
              · rw [if_neg h6] at h
                cases h

theorem rutP1At_shape {prev : Option Char} {cs m : List Char}
    (h : rutP1At prev cs = some m) :
    prevNotWord prev = true ∧
    ∃ a b c k, m = a ++ '.' :: b ++ '.' :: c ++ ['-', k] ∧
      (a.length = 1 ∨ a.length = 2) ∧ a.all isDigitCh = true ∧
      b.length = 3 ∧ b.all isDigitCh = true ∧
      c.length = 3 ∧ c.all isDigitCh = true ∧ isChk k = true := by
  rw [rutP1At] at h
  by_cases hp : prevNotWord prev = true
  · rw [if_pos hp] at h
    refine ⟨hp, ?_⟩
    cases hg : (takeDigits 2 cs).bind fun a => p1Tail a.1 a.2 with
    | some m2 =>
      rw [hg] at h
      cases h
      cases ht : takeDigits 2 cs with
      | none => rw [ht, Option.none_bind] at hg; cases hg
      | some a =>
        rw [ht, Option.some_bind] at hg
        obtain ⟨ha1, ha2, -⟩ := takeDigits_some ht
        obtain ⟨b, c, k, hm, hb1, hb2, hc1, hc2, hk⟩ := p1Tail_shape hg
        exact ⟨a.1, b, c, k, hm, Or.inr ha1, ha2, hb1, hb2, hc1, hc2, hk⟩
    | none =>
      rw [hg] at h
      cases ht : takeDigits 1 cs with
      | none => rw [ht, Option.none_bind] at h; cases h
      | some a =>
        rw [ht, Option.some_bind] at h
        obtain ⟨ha1, ha2, -⟩ := takeDigits_some ht
        obtain ⟨b, c, k, hm, hb1, hb2, hc1, hc2, hk⟩ := p1Tail_shape h
        exact ⟨a.1, b, c, k, hm, Or.inl ha1, ha2, hb1, hb2, hc1, hc2, hk⟩
  · rw [if_neg hp] at h
    cases h

theorem p2Tail_shape {lead cs m : List Char} (h : p2Tail lead cs = some m) :
    ∃ k, m = lead ++ ['-', k] ∧ isChk k = true := by
  rw [p2Tail] at h
  cases h1 : expectCh '-' cs with
  | none => rw [h1, Option.none_bind] at h; cases h
  | some cs1 =>
    rw [h1, Option.some_bind] at h
    cases cs1 with
    | nil => cases h
    | cons k rest =>
      dsimp only at h
      by_cases h2 : isChk k = true ∧ nextNotWord rest = true
      · rw [if_pos h2] at h
        cases h
        exact ⟨k, rfl, h2.1⟩
      · rw [if_neg h2] at h
        cases h

theorem rutP2At_shape {prev : Option Char} {cs m : List Char}
    (h : rutP2At prev cs = some m) :
    prevNotWord prev = true ∧
    ∃ a k, m = a ++ ['-', k] ∧ (a.length = 7 ∨ a.length = 8) ∧
      a.all isDigitCh = true ∧ isChk k = true := by
  rw [rutP2At] at h
  by_cases hp : prevNotWord prev = true
  · rw [if_pos hp] at h
    refine ⟨hp, ?_⟩
    cases hg : (takeDigits 8 cs).bind fun a => p2Tail a.1 a.2 with
    | some m2 =>
      rw [hg] at h
      cases h
      cases ht : takeDigits 8 cs with
      | none => rw [ht, Option.none_bind] at hg; cases hg
      | some a =>
        rw [ht, Option.some_bind] at hg
        obtain ⟨ha1, ha2, -⟩ := takeDigits_some ht
        obtain ⟨k, hm, hk⟩ := p2Tail_shape hg
        exact ⟨a.1, k, hm, Or.inr ha1, ha2, hk⟩
    | none =>
      rw [hg] at h
      cases ht : takeDigits 7 cs with
      | none => rw [ht, Option.none_bind] at h; cases h
      | some a =>
        rw [ht, Option.some_bind] at h
        obtain ⟨ha1, ha2, -⟩ := takeDigits_some ht
        obtain ⟨k, hm, hk⟩ := p2Tail_shape h
        exact ⟨a.1, k, hm, Or.inl ha1, ha2, hk⟩
  · rw [if_neg hp] at h
    cases h

theorem p3Try_shape {k : Nat} {cs m : List Char} (h : p3Try k cs = some m) :
    m.length = k ∧ m.all isDigitCh = true := by
  rw [p3Try] at h
  cases ht : takeDigits k cs with
  | none => rw [ht, Option.none_bind] at h; cases h
  | some a =>
    rw [ht, Option.some_bind] at h
    by_cases h2 : nextNotWord a.2 = true
    · rw [if_pos h2] at h
      cases h
      obtain ⟨ha1, ha2, -⟩ := takeDigits_some ht
      exact ⟨ha1, ha2⟩
    · rw [if_neg h2] at h
      cases h

theorem rutP3At_shape {prev : Option Char} {cs m : List Char}
    (h : rutP3At prev cs = some m) :
    prevNotWord prev = true ∧
    (m.length = 7 ∨ m.length = 8 ∨ m.length = 9) ∧ m.all isDigitCh = true := by
  rw [rutP3At] at h
  by_cases hp : prevNotWord prev = true
  · rw [if_pos hp] at h
    refine ⟨hp, ?_⟩
    cases h9 : p3Try 9 cs with
    | some m2 =>
      rw [h9] at h
      cases h
      have := p3Try_shape h9
      exact ⟨Or.inr (Or.inr this.1), this.2⟩
    | none =>
      rw [h9] at h
      cases h8 : p3Try 8 cs with
      | some m2 =>
        rw [h8] at h
        cases h
        have := p3Try_shape h8
        exact ⟨Or.inr (Or.inl this.1), this.2⟩
      | none =>
        rw [h8] at h
        have := p3Try_shape h
        exact ⟨Or.inl this.1, this.2⟩
  · rw [if_neg hp] at h
    cases h

/-- C7 amended: the code first folds `,` and `:` to `.`, then tries the three
patterns — anchored at word boundaries on both sides — in the fixed priority
order, returning the first (leftmost) match of the first pattern that matches,
uppercased, else empty; each pattern's match has the stated digit shape.  In
particular `"12,345,678-9"` yields `"12.345.678-9"`. -/
theorem rut_priority_fold_and_shapes :
    (∀ s : String, s ≠ "" →
      extract_rut_from_text s =
        (match searchFrom rutP1At (foldPunct s.data) 0 with
         | some m => (⟨m.map Char.toUpper⟩ : String)
         | none =>
           match searchFrom rutP2At (foldPunct s.data) 0 with
           | some m => (⟨m.map Char.toUpper⟩ : String)
           | none =>
             match searchFrom rutP3At (foldPunct s.data) 0 with
             | some m => (⟨m.map Char.toUpper⟩ : String)
             | none => "")) ∧
    (∀ prev cs m, rutP1At prev cs = some m →
      prevNotWord prev = true ∧
      ∃ a b c k, m = a ++ '.' :: b ++ '.' :: c ++ ['-', k] ∧
        (a.length = 1 ∨ a.length = 2) ∧ a.all isDigitCh = true ∧
        b.length = 3 ∧ b.all isDigitCh = true ∧
        c.length = 3 ∧ c.all isDigitCh = true ∧ isChk k = true) ∧
    (∀ prev cs m, rutP2At prev cs = some m →
      prevNotWord prev = true ∧
      ∃ a k, m = a ++ ['-', k] ∧ (a.length = 7 ∨ a.length = 8) ∧
        a.all isDigitCh = true ∧ isChk k = true) ∧
    (∀ prev cs m, rutP3At prev cs = some m →
      prevNotWord prev = true ∧
      (m.length = 7 ∨ m.length = 8 ∨ m.length = 9) ∧ m.all isDigitCh = true) ∧
    extract_rut_from_text "12,345,678-9" = "12.345.678-9" := by
  refine ⟨?_, fun prev cs m h => rutP1At_shape h, fun prev cs m h => rutP2At_shape h,
    fun prev cs m h => rutP3At_shape h, by decide⟩
  intro s hs
  rw [extract_rut_from_text, if_neg hs]
  rw [scanSearch_zero rutP1At (foldPunct s.data), scanSearch_zero rutP2At (foldPunct s.data),
    scanSearch_zero rutP3At (foldPunct s.data)]

/-- Witness for C7's amended theorem: a concrete pattern-1 match decomposed
by the shape conjunct. -/
theorem rut_priority_fold_and_shapes_witness :
    rutP1At none ("12.345.678-9" : String).data = some ("12.345.678-9" : String).data ∧
    (prevNotWord none = true ∧
      ∃ a b c k, ("12.345.678-9" : String).data = a ++ '.' :: b ++ '.' :: c ++ ['-', k] ∧
        (a.length = 1 ∨ a.length = 2) ∧ a.all isDigitCh = true ∧
        b.length = 3 ∧ b.all isDigitCh = true ∧
        c.length = 3 ∧ c.all isDigitCh = true ∧ isChk k = true) :=
  ⟨by decide,
   rut_priority_fold_and_shapes.2.1 none ("12.345.678-9" : String).data
     ("12.345.678-9" : String).data (by decide)⟩

/-! ## Text Normalizer (`normalize_text`, lines 9-14)

`normalize_text` lowercases, decomposes to NFD, and strips combining marks
(category `Mn`).  The Unicode tables are modelled for the characters the
pipeline meets: ASCII plus the Spanish accented letters; other characters are
table-identity (no case mapping, singleton decomposition, not a mark). -/

def combAcute : Char := Char.ofNat 769

def combTilde : Char := Char.ofNat 771

def combDiaeresis : Char := Char.ofNat 776

/-- `str.lower()` per character. -/
def pyLower (c : Char) : Char :=
  if 65 ≤ c.toNat ∧ c.toNat ≤ 90 then Char.ofNat (c.toNat + 32)
  else if c = 'Á' then 'á'
  else if c = 'É' then 'é'
  else if c = 'Í' then 'í'
  else if c = 'Ó' then 'ó'
  else if c = 'Ú' then 'ú'
  else if c = 'Ü' then 'ü'
  else if c = 'Ñ' then 'ñ'
  else c

/-- `unicodedata.normalize("NFD", ·)` per character. -/
def nfdChar (c : Char) : List Char :=
  if c = 'á' then ['a', combAcute]
  else if c = 'é' then ['e', combAcute]
  else if c = 'í' then ['i', combAcute]
  else if c = 'ó' then ['o', combAcute]
  else if c = 'ú' then ['u', combAcute]
  else if c = 'ü' then ['u', combDiaeresis]
  else if c = 'ñ' then ['n', combTilde]
  else if c = 'Á' then ['A', combAcute]
  else if c = 'É' then ['E', combAcute]
  else if c = 'Í' then ['I', combAcute]
  else if c = 'Ó' then ['O', combAcute]
  else if c = 'Ú' then ['U', combAcute]
  else if c = 'Ü' then ['U', combDiaeresis]
  else if c = 'Ñ' then ['N', combTilde]
  else [c]

/-- `unicodedata.category(c) == "Mn"` for the modelled marks. -/
def isMn (c : Char) : Bool := c = combAcute || c = combTilde || c = combDiaeresis

/-- List-level normalization body of `normalize_text`. -/
def normList (cs : List Char) : List Char :=
  ((cs.map pyLower).flatMap nfdChar).filter (fun c => !isMn c)

/-- `normalize_text`: lowercase, NFD-decompose, strip combining marks. -/
def normalize_text (s : String) : String := ⟨normList s.data⟩

/-- Normalization of a single character. -/
def normChar (c : Char) : List Char :=
  (nfdChar (pyLower c)).filter (fun c2 => !isMn c2)

theorem normList_eq_flatMap (cs : List Char) : normList cs = cs.flatMap normChar := by
  induction cs with
  | nil => rfl
  | cons c rest ih =>
    simp only [normList, List.map_cons, List.flatMap_cons, List.filter_append] at *
    rw [ih]
    rfl

/-- A character untouched by every stage of normalization. -/
def stableCh (c : Char) : Prop :=
  pyLower c = c ∧ nfdChar c = [c] ∧ isMn c = false

/-- The characters with their own rows in the modelled Unicode tables. -/
def tableChars : List Char :=
  ['á', 'é', 'í', 'ó', 'ú', 'ü', 'ñ', 'Á', 'É', 'Í', 'Ó', 'Ú', 'Ü', 'Ñ',
    combAcute, combTilde, combDiaeresis]

instance stableChDecidable (c : Char) : Decidable (stableCh c) :=
  decidable_of_iff (pyLower c = c ∧ nfdChar c = [c] ∧ isMn c = false) Iff.rfl

theorem stableCh_of_plain {c : Char} (hup : ¬(65 ≤ c.toNat ∧ c.toNat ≤ 90))
    (htab : c ∉ tableChars) : stableCh c := by
  simp only [tableChars, List.mem_cons, List.mem_singleton, not_or] at htab
  obtain ⟨t1, t2, t3, t4, t5, t6, t7, t8, t9, t10, t11, t12, t13, t14, t15, t16, t17⟩ := htab
  refine ⟨?_, ?_, ?_⟩
  · simp [pyLower, hup, t8, t9, t10, t11, t12, t13, t14]
  · simp [nfdChar, t1, t2, t3, t4, t5, t6, t7, t8, t9, t10, t11, t12, t13, t14]
  · simp [isMn, t15, t16, t17]

theorem stableCh_lower_ascii {c : Char} (h1 : 97 ≤ c.toNat) (h2 : c.toNat ≤ 122) :
    stableCh c := by
  refine stableCh_of_plain (by omega) ?_
  intro hmem
  have : c.toNat = 225 ∨ c.toNat = 233 ∨ c.toNat = 237 ∨ c.toNat = 243 ∨
      c.toNat = 250 ∨ c.toNat = 252 ∨ c.toNat = 241 ∨ c.toNat = 193 ∨
      c.toNat = 201 ∨ c.toNat = 205 ∨ c.toNat = 211 ∨ c.toNat = 218 ∨
      c.toNat = 220 ∨ c.toNat = 209 ∨ c.toNat = 769 ∨ c.toNat = 771 ∨
      c.toNat = 776 := by
    simp only [tableChars, List.mem_cons, List.not_mem_nil, or_false] at hmem
    rcases hmem with rfl | rfl | rfl | rfl | rfl | rfl | rfl | rfl | rfl | rfl | rfl
      | rfl | rfl | rfl | rfl | rfl | rfl <;> decide
  omega

theorem stable_normChar : ∀ c : Char, ∀ d ∈ normChar c, stableCh d := by
  intro c d hd
  by_cases hup : 65 ≤ c.toNat ∧ c.toNat ≤ 90
  · have hval : (c.toNat + 32).isValidChar := Or.inl (by omega)
    have hlow : pyLower c = Char.ofNat (c.toNat + 32) := by
      rw [pyLower, if_pos hup]
    have htn : (Char.ofNat (c.toNat + 32)).toNat = c.toNat + 32 :=
      charToNat_ofNat_valid hval
    have hst : stableCh (Char.ofNat (c.toNat + 32)) :=
      stableCh_lower_ascii (by omega) (by omega)
    rw [normChar, hlow, hst.2.1] at hd
    have hfil : List.filter (fun c2 => !isMn c2) [Char.ofNat (c.toNat + 32)] =
        [Char.ofNat (c.toNat + 32)] := by
      simp [hst.2.2]
    rw [hfil] at hd
    rw [List.mem_singleton.mp hd]
    exact hst
  · by_cases htab : c ∈ tableChars
    · have : c = 'á' ∨ c = 'é' ∨ c = 'í' ∨ c = 'ó' ∨ c = 'ú' ∨ c = 'ü' ∨ c = 'ñ' ∨
          c = 'Á' ∨ c = 'É' ∨ c = 'Í' ∨ c = 'Ó' ∨ c = 'Ú' ∨ c = 'Ü' ∨ c = 'Ñ' ∨
          c = combAcute ∨ c = combTilde ∨ c = combDiaeresis := by
        simpa [tableChars] using htab
      rcases this with rfl | rfl | rfl | rfl | rfl | rfl | rfl | rfl | rfl | rfl | rfl
        | rfl | rfl | rfl | rfl | rfl | rfl <;>
        (revert d; decide)
    · have hst := stableCh_of_plain hup htab
      rw [normChar, hst.1, hst.2.1] at hd
      have hfil : List.filter (fun c2 => !isMn c2) [c] = [c] := by
        simp [hst.2.2]
      rw [hfil] at hd
      rw [List.mem_singleton.mp hd]
      exact hst

theorem normChar_of_stable {c : Char} (h : stableCh c) : normChar c = [c] := by
  rw [normChar, h.1, h.2.1]
  simp [h.2.2]

theorem flatMap_normChar_stable :
    ∀ l : List Char, (∀ d ∈ l, stableCh d) → l.flatMap normChar = l := by
  intro l
  induction l with
  | nil => intro _; rfl
  | cons c rest ih =>
    intro hst
    rw [List.flatMap_cons, normChar_of_stable (hst c (List.mem_cons_self c rest)),
      ih (fun d hd => hst d (List.mem_cons_of_mem c hd))]
    rfl

/-- C9: `normalize_text` (lowercase, NFD decomposition, removal of combining
marks) is idempotent, and for example sends `"COMPROBANTE Áéñ"` to
`"comprobante aen"`. -/
theorem normalize_text_idempotent :
    (∀ T : String, normalize_text (normalize_text T) = normalize_text T) ∧
    normalize_text "COMPROBANTE Áéñ" = "comprobante aen" := by
  constructor
  · intro T
    show (⟨normList (normList T.data)⟩ : String) = (⟨normList T.data⟩ : String)
    have : normList (normList T.data) = normList T.data := by
      rw [normList_eq_flatMap (normList T.data)]
      apply flatMap_normChar_stable
      intro d hd
      rw [normList_eq_flatMap, List.mem_flatMap] at hd
      obtain ⟨c, -, hdc⟩ := hd
      exact stable_normChar c d hdc
    rw [this]
  · decide

end Indexanter
